import Mathlib

/-!
Verification of the Bi-RRT* planner core (`src/unnamed/part_000`,
`hpp::core::pathPlanner::BiRrtStar` and its helper functions) against its
natural-language specification.

Shallow embedding conventions:
* `value_type` (IEEE doubles in the source) is embedded as `ℚ`;
* configurations are an arbitrary type `C` with decidable equality
  (the planner code is generic in the configuration representation);
* roadmap nodes are identified by natural-number handles, as the spec's
  design notes recommend ("stable node identity, e.g. integer handles");
* collaborator services (distance, steering method, path projector, path
  validation, `std::log`, `std::pow`) are fields of a `Pb` structure, since
  the spec declares them opaque external interfaces;
* fallible code returns `Except PErr`; a C `assert` is modelled as a check
  that fails with `PErr.assertViolation` (debug-build semantics); a loop of
  the source that need not terminate takes explicit fuel and signals
  exhaustion with `PErr.nonTermination` (for `Option`-valued helpers, with
  `none`).
-/

namespace BiRrt

/-- Scalar type embedding the planner's `value_type`. -/
abbrev Scal := ℚ

/-- Roadmap node handle (`NodePtr_t` identity). -/
abbrev Node := Nat

/-- A path (`PathPtr_t`): a curve with two endpoint configurations and a
scalar length.  Only the operations the planner uses are kept: `pstart`
(`path->initial()`), `pend` (`path->end()`), `plen` (`path->length()`). -/
structure Path (C : Type) where
  pstart : C
  pend : C
  plen : Scal
deriving DecidableEq

/-- The reversed path, `path->reverse()`: endpoints swapped, same length. -/
def Path.reverse {C : Type} (p : Path C) : Path C :=
  ⟨p.pend, p.pstart, p.plen⟩

/-- A directed roadmap edge (`EdgePtr_t`): `src` is `e->from()`, `dst` is
`e->to()`, `path` is `e->path()`. -/
structure Edge (C : Type) where
  src : Node
  dst : Node
  path : Path C
deriving DecidableEq

/-- `ParentMap_t = std::map<NodePtr_t, EdgePtr_t>`: an association list from
node to optional parent edge (`none` embeds the null `EdgePtr_t()`). -/
abbrev ParentMap (C : Type) := List (Node × Option (Edge C))

/-- Map lookup, `map.find(n)`: `none` embeds the end iterator. -/
def pmFind {C : Type} (m : ParentMap C) (n : Node) : Option (Option (Edge C)) :=
  match m with
  | [] => none
  | (k, e) :: rest => if k = n then some e else pmFind rest n

/-- Map update, `map[n] = e`: overwrites an existing key, appends a new one. -/
def pmSet {C : Type} (m : ParentMap C) (n : Node) (e : Option (Edge C)) : ParentMap C :=
  match m with
  | [] => [(n, e)]
  | (k, e0) :: rest => if k = n then (k, e) :: rest else (k, e0) :: pmSet rest n e

/-- The error outcomes of the embedded planner code.
`orphanNode` embeds the `std::logic_error("this node has no parent.")`
throw in `computeCost`; `endDeref` embeds dereferencing the `end()`
iterator (undefined behaviour in the source); `parentMapInconsistent`
embeds the `std::logic_error` throw of `setParent`; `assertViolation`
embeds a failing C `assert` (debug build); `nonTermination` embeds a
source loop that does not finish within the modelled fuel; `missingNode`
embeds dereferencing a node handle the roadmap does not hold. -/
inductive PErr where
  | orphanNode
  | endDeref
  | parentMapInconsistent
  | assertViolation
  | nonTermination
  | missingNode
deriving DecidableEq

/-- One step of `computeCost`'s loop
(`for (It_t current = map.find(n); current->second; current = map.find(current->second->from())) { if (current == map.end()) throw ...; c += current->second->path()->length(); }`).
The loop CONDITION `current->second` is evaluated before the body's
`current == map.end()` guard, so when the lookup failed the source
dereferences the end iterator: that is embedded as `PErr.endDeref`, and the
`orphanNode` throw in the body is unreachable.  Fuel bounds the chain walk;
on a cyclic map the source loops forever, embedded as `nonTermination`. -/
def computeCostFuel {C : Type} (m : ParentMap C) : Nat → Node → Scal → Except PErr Scal
  | 0, _, _ => .error .nonTermination
  | Nat.succ fuel, n, acc =>
    match pmFind m n with
    | none => .error .endDeref
    | some none => .ok acc
    | some (some e) => computeCostFuel m fuel e.src (acc + e.path.plen)

/-- `computeCost(map, n)`: walk the parent chain summing path lengths.
`m.length + 1` fuel is enough for every acyclic chain (the chain visits
pairwise distinct keys of `m`). -/
def computeCost {C : Type} (m : ParentMap C) (n : Node) : Except PErr Scal :=
  computeCostFuel m (m.length + 1) n 0

/-- `setParent(map, n, e)`: when the edge is present the source first runs
`assert(e->to() == n)` and then throws
`std::logic_error("could not find node from of edge in parent map.")` when
`map.find(e->from()) == map.end()` (after printing the configuration, I/O
that the embedding drops); only then `map[n] = e`. -/
def setParent {C : Type} (m : ParentMap C) (n : Node) (e : Option (Edge C)) :
    Except PErr (ParentMap C) :=
  match e with
  | some ed =>
    if ed.dst ≠ n then .error .assertViolation
    else if (pmFind m ed.src).isNone then .error .parentMapInconsistent
    else .ok (pmSet m n (some ed))
  | none => .ok (pmSet m n none)

/-- A roadmap vertex: handle plus configuration. -/
structure RNode (C : Type) where
  id : Node
  cfg : C
deriving DecidableEq

/-- The roadmap collaborator.  Its code is not among the repository files
under scrutiny (it lives in `hpp/core/roadmap.hh`), so, as the spec directs,
it is modelled from the spec: a node set, a directed edge set, and a
connected-component label per node, merged automatically on edge insertion
(spec §3 "add-node / add-edge with automatic component merging on edge
insertion").  `comps` associates each node handle with its component label.
Modelled from the spec: `addNode` returns the existing node when a node with
the same configuration is already present; the spec requires this for
`connect` to ever merge the two trees (§4.5 "Return true when the components
merge (extend's edge insertion caused unification)"). -/
structure Roadmap (C : Type) where
  nodes : List (RNode C)
  edges : List (Edge C)
  comps : List (Node × Nat)
  nextId : Node
  nextComp : Nat
deriving DecidableEq

/-- Lookup of a node's component label in the label list. -/
def clookup (l : List (Node × Nat)) (n : Node) : Option Nat :=
  match l with
  | [] => none
  | (k, c) :: rest => if k = n then some c else clookup rest n

namespace Roadmap

variable {C : Type} [DecidableEq C]

/-- Component label of a node (`node->connectedComponent()`). -/
def cmp (g : Roadmap C) (n : Node) : Nat :=
  (clookup g.comps n).getD 0

/-- Number of connected components (`roadmap()->connectedComponents().size()`). -/
def ccCount (g : Roadmap C) : Nat :=
  ((g.nodes.map fun r => g.cmp r.id).dedup).length

/-- Configuration stored at a node handle (`node->configuration()`). -/
def cfgOf (g : Roadmap C) (n : Node) : Option C :=
  (g.nodes.find? fun r => r.id = n).map (fun r => r.cfg)

/-- Out-edges of a node (`node->outEdges()`), in insertion order. -/
def outEdges (g : Roadmap C) (n : Node) : List (Edge C) :=
  g.edges.filter fun e => e.src = n

/-- Modelled from the spec: `roadmap()->addNode(config)` returns the already
present node when one carries the same configuration (required for component
merging, see `Roadmap`), else appends a fresh node in a fresh component. -/
def addNode (g : Roadmap C) (q : C) : Roadmap C × Node :=
  match g.nodes.find? (fun r => r.cfg = q) with
  | some r => (g, r.id)
  | none =>
    (⟨g.nodes ++ [⟨g.nextId, q⟩], g.edges, g.comps ++ [(g.nextId, g.nextComp)],
      g.nextId + 1, g.nextComp + 1⟩, g.nextId)

/-- Modelled from the spec: `roadmap()->addEdge(a, b, path)` appends the
directed edge and merges the components of `a` and `b` (every node labelled
with `a`'s component is relabelled with `b`'s). -/
def addEdge (g : Roadmap C) (a b : Node) (p : Path C) : Roadmap C × Edge C :=
  let ca := g.cmp a
  let cb := g.cmp b
  let e : Edge C := ⟨a, b, p⟩
  (⟨g.nodes, g.edges ++ [e],
    g.comps.map (fun kc => if kc.2 = ca then (kc.1, cb) else kc),
    g.nextId, g.nextComp⟩, e)

end Roadmap

/-- The planner's collaborators and parameters (spec §6): distance, steering
method, optional path projector, `path->extract` (truncation under the
path's own parameterization), path validation
(`validate(path, false, validPart, report)`: the Bool result and the
valid-part path, which may be absent), the real functions `std::log` and
`std::pow` used in the ball-radius formula, and the parameters `gamma`,
`extendMaxLength` (`BiRRT*/gamma`, `BiRRT*/maxStepLength`) and the robot's
`numberDof()`. -/
structure Pb (C : Type) where
  dist : C → C → Scal
  steer : C → C → Option (Path C)
  projector : Option (Path C → Option (Path C))
  extractTo : Path C → Scal → Path C
  pvalid : Path C → Bool × Option (Path C)
  logF : Scal → Scal
  powF : Scal → Scal → Scal
  gamma : Scal
  extendMaxLength : Scal
  numberDof : Nat

namespace Roadmap

variable {C : Type} [DecidableEq C]

/-- `roadmap()->nearestNode(q, cc, dist)` (and, with `cc = none`, the
unrestricted `nearestNode(q, dist)` of `improve`).  Modelled from the spec:
scan the nodes (restricted to the component when given) keeping the first
node of strictly minimal distance. -/
def nearestNode (g : Roadmap C) (pb : Pb C) (cc : Option Nat) (q : C) :
    Option (Node × Scal) :=
  (g.nodes.filter fun r => match cc with
      | none => true
      | some c => g.cmp r.id = c).foldl
    (fun best r =>
      let d := pb.dist r.cfg q
      match best with
      | none => some (r.id, d)
      | some (b, db) => if d < db then some (r.id, d) else some (b, db))
    none

/-- `roadmap()->nodesWithinBall(q, cc, radius)`.  Modelled from the spec:
the nodes of the component within `radius` of `q`. -/
def nodesWithinBall (g : Roadmap C) (pb : Pb C) (cc : Nat) (q : C) (radius : Scal) :
    List Node :=
  ((g.nodes.filter fun r => g.cmp r.id = cc ∧ pb.dist r.cfg q ≤ radius).map
    fun r => r.id)

end Roadmap

/-- `BiRrtStar::buildPath(q0, q1, maxLength, validatePath)`: steering, then
projection when a projector is configured, then truncation when
`maxLength > 0 && path->length() > maxLength`
(`path->extract(I.first, I.first + maxLength)`), then, when validation is
requested, the valid part returned by
`pathValidation()->validate(path, false, validPart, report)`. -/
def buildPath {C : Type} (pb : Pb C) (q0 q1 : C) (maxLength : Scal)
    (validatePath : Bool) : Option (Path C) :=
  match pb.steer q0 q1 with
  | none => none
  | some p0 =>
    match (match pb.projector with
           | none => some p0
           | some proj => proj p0) with
    | none => none
    | some p1 =>
      let p2 := if 0 < maxLength ∧ maxLength < p1.plen then pb.extractTo p1 maxLength else p1
      if validatePath then (pb.pvalid p2).2 else some p2

/-- `validate(problem, path)`: the Bool result of path validation. -/
def pathOk {C : Type} (pb : Pb C) (p : Path C) : Bool :=
  (pb.pvalid p).1

/-- `WeighedNode_t`: a queue entry (node, parent edge, accumulated cost).
The source orders entries by `operator<` comparing `cost`. -/
structure WNode (C : Type) where
  node : Node
  par : Option (Edge C)
  cost : Scal
deriving DecidableEq

/-- Popping `std::priority_queue<WeighedNode_t>`: a `std::priority_queue`
with `operator<` on `cost` is a MAX-heap, so the popped entry is one of
maximal cost (among equal costs the embedding keeps the earliest-listed
entry; the heap's own tie order is unspecified).  Returns the popped entry
and the remaining entries. -/
def popBest {C : Type} (w : WNode C) (ws : List (WNode C)) : WNode C × List (WNode C) :=
  match ws with
  | [] => (w, [])
  | x :: xs =>
    if w.cost < x.cost then
      let r := popBest x xs
      (r.1, w :: r.2)
    else
      let r := popBest w xs
      (r.1, x :: r.2)

/-- Lookup in the `visited` map of `computeParentMap`. -/
def vFind {C : Type} (v : List (Node × Option (Edge C) × Scal)) (n : Node) :
    Option (Option (Edge C) × Scal) :=
  match v with
  | [] => none
  | (k, pc) :: rest => if k = n then some pc else vFind rest n

/-- Overwrite in the `visited` map of `computeParentMap`
(`res.first->second.cost = ...; res.first->second.parent = ...`). -/
def vSet {C : Type} (v : List (Node × Option (Edge C) × Scal)) (n : Node)
    (e : Option (Edge C)) (c : Scal) : List (Node × Option (Edge C) × Scal) :=
  match v with
  | [] => [(n, e, c)]
  | (k, pc) :: rest => if k = n then (k, e, c) :: rest else (k, pc) :: vSet rest n e c

/-- The queue entries pushed for the out-edges of the current node
(`queue.push(WeighedNode_t(edge->to(), edge, current.cost + edge->path()->length()))`). -/
def pushKids {C : Type} [DecidableEq C] (g : Roadmap C) (cur : WNode C) : List (WNode C) :=
  (g.outEdges cur.node).map fun e => ⟨e.dst, some e, cur.cost + e.path.plen⟩

/-- The `while (!queue.empty())` loop of `computeParentMap`: pop the
maximal-cost entry; insert it if unvisited, overwrite and re-expand when
strictly cheaper than the recorded cost, else drop it; on insertion or
overwrite push all out-edges.  Fuel bounds the number of iterations (the
source loop's termination is not syntactic); `none` means fuel ran out. -/
def cpmLoop {C : Type} [DecidableEq C] (g : Roadmap C) :
    Nat → List (Node × Option (Edge C) × Scal) → List (WNode C) →
    Option (List (Node × Option (Edge C) × Scal))
  | 0, _, _ => none
  | Nat.succ fuel, visited, queue =>
    match queue with
    | [] => some visited
    | w :: ws =>
      let pr := popBest w ws
      let cur := pr.1
      let rest := pr.2
      match vFind visited cur.node with
      | none =>
        cpmLoop g fuel (visited ++ [(cur.node, cur.par, cur.cost)]) (rest ++ pushKids g cur)
      | some pc =>
        if cur.cost < pc.2 then
          cpmLoop g fuel (vSet visited cur.node cur.par cur.cost) (rest ++ pushKids g cur)
        else
          cpmLoop g fuel visited rest

/-- `computeParentMap(root)`: run the loop from the queue holding
`(root, no-parent, 0)` and emit `{node ↦ recorded incoming edge}`. -/
def computeParentMap {C : Type} [DecidableEq C] (g : Roadmap C) (root : Node) (fuel : Nat) :
    Option (ParentMap C) :=
  (cpmLoop g fuel [] [⟨root, none, 0⟩]).map fun v => v.map fun t => (t.1, t.2.1)

/-- Instrumented mirror of `cpmLoop` recording the cost of every popped
entry, in pop order.  Identical control flow, used to state what order the
priority queue is actually popped in. -/
def cpmPopsLoop {C : Type} [DecidableEq C] (g : Roadmap C) :
    Nat → List (Node × Option (Edge C) × Scal) → List (WNode C) → Option (List Scal)
  | 0, _, _ => none
  | Nat.succ fuel, visited, queue =>
    match queue with
    | [] => some []
    | w :: ws =>
      let pr := popBest w ws
      let cur := pr.1
      let rest := pr.2
      (match vFind visited cur.node with
      | none =>
        cpmPopsLoop g fuel (visited ++ [(cur.node, cur.par, cur.cost)]) (rest ++ pushKids g cur)
      | some pc =>
        if cur.cost < pc.2 then
          cpmPopsLoop g fuel (vSet visited cur.node cur.par cur.cost) (rest ++ pushKids g cur)
        else
          cpmPopsLoop g fuel visited rest).map fun l => cur.cost :: l

/-- The sequence of accumulated costs in the order the queue of
`computeParentMap(root)` pops them. -/
def cpmPops {C : Type} [DecidableEq C] (g : Roadmap C) (root : Node) (fuel : Nat) :
    Option (List Scal) :=
  cpmPopsLoop g fuel [] [⟨root, none, 0⟩]

/-- The epsilon of `if (dist < 1e-16) return false;`. -/
def eps16 : Scal := 1 / 10 ^ 16

/-- The epsilon of `if (!path || path->length() < 1e-10) return false;`. -/
def eps10 : Scal := 1 / 10 ^ 10

/-- The near-neighbor ball radius as the source computes it in both
`extend` (lines 255-257) and `improve` (lines 335-337):
`std::min(gamma_ * std::pow(std::log(n)/n, 1./numberDof), extendMaxLength_)`
where `n` is the roadmap node count. -/
def ballRadius {C : Type} (pb : Pb C) (nn : Nat) : Scal :=
  min (pb.gamma * pb.powF (pb.logF (nn : Scal) / (nn : Scal)) (1 / (pb.numberDof : Scal)))
    pb.extendMaxLength

/-- The choose-parent state: current best cost (`cost_q`), best parent
(`near`), best path to the new configuration (`path` / `toqnew`), and the
recorded candidate paths with their validated flag (`paths`). -/
structure Choice (C : Type) where
  costq : Scal
  near : Node
  path : Path C
  recs : List (Bool × Option (Path C))
deriving DecidableEq

/-- The choose-parent loop over `nearNodes`, shared verbatim between
`extend` (lines 262-286) and `improve` (lines 351-375): a candidate equal
to the current `near` records `(true, path)`; otherwise an uncapped,
unvalidated path to the new configuration is built and recorded; when it
exists and strictly improves `cost_q` the record's flag is set, the path is
validated, and on success the best triple is updated, on failure the
record's path is dropped. -/
def choosePass {C : Type} [DecidableEq C] (pb : Pb C) (g : Roadmap C) (m : ParentMap C)
    (q : C) : List Node → Choice C → Except PErr (Choice C)
  | [], st => .ok st
  | cand :: rest, st =>
    if cand = st.near then
      choosePass pb g m q rest { st with recs := st.recs ++ [(true, some st.path)] }
    else
      match g.cfgOf cand with
      | none => .error .missingNode
      | some cfgc =>
        match buildPath pb cfgc q (-1) false with
        | none => choosePass pb g m q rest { st with recs := st.recs ++ [(false, none)] }
        | some n2n => do
          let cc ← computeCost m cand
          if cc + n2n.plen < st.costq then
            if pathOk pb n2n then
              choosePass pb g m q rest ⟨cc + n2n.plen, cand, n2n, st.recs ++ [(true, some n2n)]⟩
            else
              choosePass pb g m q rest { st with recs := st.recs ++ [(true, none)] }
          else
            choosePass pb g m q rest { st with recs := st.recs ++ [(false, some n2n)] }

/-- The rewiring loop over the recorded candidates, shared between `extend`
(lines 294-308) and `improve` (lines 382-397): skip the chosen parent and
dropped paths; when `cost_q + length < cost_to_root(candidate)`, validate
if not yet validated, and on success add the forward and reverse edges and
re-point the candidate's parent to the new reverse edge.  `checkQnew`
embeds the extra `assert(toRoot_[k].find(qnew) != toRoot_[k].end())` the
`improve` copy carries (line 393). -/
def rewirePass {C : Type} [DecidableEq C] (pb : Pb C) (qnew near : Node) (costq : Scal)
    (checkQnew : Bool) :
    List (Node × (Bool × Option (Path C))) → Roadmap C → ParentMap C →
    Except PErr (Roadmap C × ParentMap C)
  | [], g, m => .ok (g, m)
  | (nd, re) :: rest, g, m =>
    if nd = near then rewirePass pb qnew near costq checkQnew rest g m
    else
      match re.2 with
      | none => rewirePass pb qnew near costq checkQnew rest g m
      | some pth => do
        let ci ← computeCost m nd
        if costq + pth.plen < ci then
          if re.1 || pathOk pb pth then
            let g1 := (g.addEdge nd qnew pth).1
            let pr := g1.addEdge qnew nd pth.reverse
            if checkQnew ∧ (pmFind m qnew).isNone then .error .assertViolation
            else do
              let m1 ← setParent m nd (some pr.2)
              rewirePass pb qnew near costq checkQnew rest pr.1 m1
          else rewirePass pb qnew near costq checkQnew rest g m
        else rewirePass pb qnew near costq checkQnew rest g m

/-- The result of `extend`: its Bool return, the roadmap, the parent map,
and the in-out configuration `q`. -/
structure ExtendOut (C : Type) where
  success : Bool
  g : Roadmap C
  m : ParentMap C
  q : C
deriving DecidableEq

/-- The body of `extend` after the early returns (lines 254-309): `q` has
been overwritten with the path's end (`q1`), the near-neighbor ball is
queried at the PRE-INSERTION node count, choose-parent runs, then the new
node is inserted with forward/reverse edges,
`assert(parentMap.find(near) != parentMap.end())` is checked, the new
node's parent is set, and the candidates are rewired. -/
def extendCore {C : Type} [DecidableEq C] (pb : Pb C) (g : Roadmap C) (m : ParentMap C)
    (cc : Nat) (near0 : Node) (p : Path C) : Except PErr (ExtendOut C) :=
  let q1 := p.pend
  let nearNodes := g.nodesWithinBall pb cc q1 (ballRadius pb g.nodes.length)
  do
    let c0 ← computeCost m near0
    let ch ← choosePass pb g m q1 nearNodes ⟨c0 + p.plen, near0, p, []⟩
    let pr1 := g.addNode q1
    let pr2 := pr1.1.addEdge ch.near pr1.2 ch.path
    let g3 := (pr2.1.addEdge pr1.2 ch.near ch.path.reverse).1
    if (pmFind m ch.near).isNone then .error .assertViolation
    else do
      let m1 ← setParent m pr1.2 (some pr2.2)
      let pr3 ← rewirePass pb pr1.2 ch.near ch.costq false (nearNodes.zip ch.recs) g3 m1
      .ok ⟨true, pr3.1, pr3.2, q1⟩

/-- `BiRrtStar::extend(target, parentMap, q)` (lines 241-310): nearest node
of the target's component (return false under `1e-16`), capped validated
path (return false when absent or under `1e-10`), then `extendCore` with
`q` overwritten with the path's end. -/
def extend {C : Type} [DecidableEq C] (pb : Pb C) (g : Roadmap C) (m : ParentMap C)
    (target : Node) (q : C) : Except PErr (ExtendOut C) :=
  let cc := g.cmp target
  match g.nearestNode pb (some cc) q with
  | none => .error .missingNode
  | some nd =>
    if nd.2 < eps16 then .ok ⟨false, g, m, q⟩
    else
      match g.cfgOf nd.1 with
      | none => .error .missingNode
      | some nearCfg =>
        match buildPath pb nearCfg q pb.extendMaxLength true with
        | none => .ok ⟨false, g, m, q⟩
        | some p =>
          if p.plen < eps10 then .ok ⟨false, g, m, q⟩
          else extendCore pb g m cc nd.1 p

/-- One `k`-pass of `improve` (lines 344-398): choose-parent against its
parent map starting from the CURRENT `near` (the source does not reset
`near` between the two passes) and the pass-reset path `toqnew = path`,
then edge insertion, `assert(toRoot_[k].find(near) != toRoot_[k].end())`,
parent assignment for `qnew`, and rewiring with `checkQnew` on.  Returns
the roadmap, the pass's parent map, and the final `near`. -/
def improvePass {C : Type} [DecidableEq C] (pb : Pb C) (g : Roadmap C) (m : ParentMap C)
    (qnew near0 : Node) (p : Path C) (q : C) (nearNodes : List Node) :
    Except PErr (Roadmap C × ParentMap C × Node) := do
  let c0 ← computeCost m near0
  let ch ← choosePass pb g m q nearNodes ⟨c0 + p.plen, near0, p, []⟩
  let pr2 := g.addEdge ch.near qnew ch.path
  let g3 := (pr2.1.addEdge qnew ch.near ch.path.reverse).1
  if (pmFind m ch.near).isNone then .error .assertViolation
  else do
    let m1 ← setParent m qnew (some pr2.2)
    let pr3 ← rewirePass pb qnew ch.near ch.costq true (nearNodes.zip ch.recs) g3 m1
    .ok (pr3.1, pr3.2, ch.near)

/-- The result of `improve`: its Bool return, the roadmap and both maps. -/
structure ImproveOut (C : Type) where
  success : Bool
  g : Roadmap C
  m0 : ParentMap C
  m1 : ParentMap C
deriving DecidableEq

/-- The body of `improve` after the early returns (lines 334-399): ball
query at the PRE-INSERTION node count restricted to `roots_[0]`'s
component, single insertion of `qnew`, then the two `k`-passes sharing the
mutable `near`. -/
def improveCore {C : Type} [DecidableEq C] (pb : Pb C) (g : Roadmap C) (m0 m1 : ParentMap C)
    (root0 near0 : Node) (p : Path C) (q : C) : Except PErr (ImproveOut C) :=
  let nearNodes := g.nodesWithinBall pb (g.cmp root0) q (ballRadius pb g.nodes.length)
  let pr1 := g.addNode q
  do
    let r0 ← improvePass pb pr1.1 m0 pr1.2 near0 p q nearNodes
    let r1 ← improvePass pb r0.1 m1 pr1.2 r0.2.2 p q nearNodes
    .ok ⟨true, r1.1, r0.2.1, r1.2.1⟩

/-- `BiRrtStar::improve(q)` (lines 324-400): global nearest node (false
under `1e-16`), capped validated path (false when absent or under `1e-10`;
`q` is NOT overwritten here), then `improveCore`. -/
def improve {C : Type} [DecidableEq C] (pb : Pb C) (g : Roadmap C) (m0 m1 : ParentMap C)
    (root0 : Node) (q : C) : Except PErr (ImproveOut C) :=
  match g.nearestNode pb none q with
  | none => .error .missingNode
  | some nd =>
    if nd.2 < eps16 then .ok ⟨false, g, m0, m1⟩
    else
      match g.cfgOf nd.1 with
      | none => .error .missingNode
      | some nearCfg =>
        match buildPath pb nearCfg q pb.extendMaxLength true with
        | none => .ok ⟨false, g, m0, m1⟩
        | some p =>
          if p.plen < eps10 then .ok ⟨false, g, m0, m1⟩
          else improveCore pb g m0 m1 root0 nd.1 p q

/-- `BiRrtStar::connect(b, parentMap, q)` (lines 312-322): while the roadmap
has two connected components, call `extend` on a fresh copy of `q`; false as
soon as an `extend` fails, true once the components merged.  Fuel bounds the
loop. -/
def connect {C : Type} [DecidableEq C] (pb : Pb C) :
    Nat → Roadmap C → ParentMap C → Node → C → Except PErr (Bool × Roadmap C × ParentMap C)
  | 0, _, _, _, _ => .error .nonTermination
  | Nat.succ fuel, g, m, b, q =>
    if g.ccCount = 2 then do
      let r ← extend pb g m b q
      if r.success then connect pb fuel r.g r.m b q
      else .ok (false, r.g, r.m)
    else .ok (true, g, m)

/-- The planner state the driver owns: roadmap, the two root slots
(`roots_[0]`, `roots_[1]`) and the two parent maps (`toRoot_[0]`,
`toRoot_[1]`). -/
structure PState (C : Type) where
  g : Roadmap C
  root0 : Node
  root1 : Node
  m0 : ParentMap C
  m1 : ParentMap C
deriving DecidableEq

/-- The refinement-phase map refresh of `oneStep` (lines 187-191): when
`toRoot_[1].find(roots_[0]) == toRoot_[1].end()`, rebuild both maps with
`computeParentMap`, else keep them. -/
def refineMaps {C : Type} [DecidableEq C] (g : Roadmap C) (root0 root1 : Node)
    (m0 m1 : ParentMap C) (fuel : Nat) : Except PErr (ParentMap C × ParentMap C) :=
  if (pmFind m1 root0).isNone then
    match computeParentMap g root0 fuel, computeParentMap g root1 fuel with
    | some a, some b => .ok (a, b)
    | _, _ => .error .nonTermination
  else .ok (m0, m1)

/-- `BiRrtStar::oneStep()` (lines 172-197) with the sampled configuration
`q` passed in (the configuration shooter is an external collaborator).
Growth phase (exactly two components): `extend` on slot 0; on success,
return EARLY (before any swap) when the roots' components merged, else
`connect` on slot 1; then swap the root and map slots.  Otherwise
(refinement): refresh the maps when slot 0's root is missing from
`toRoot_[1]`, embed the source's two `assert`s on the map sizes, and call
`improve`. -/
def oneStep {C : Type} [DecidableEq C] (pb : Pb C) (st : PState C) (q : C) (fuel : Nat) :
    Except PErr (PState C) :=
  if st.g.ccCount = 2 then do
    let r ← extend pb st.g st.m0 st.root0 q
    if r.success then
      if r.g.cmp st.root0 = r.g.cmp st.root1 then
        .ok ⟨r.g, st.root0, st.root1, r.m, st.m1⟩
      else do
        let c ← connect pb fuel r.g st.m1 st.root1 r.q
        .ok ⟨c.2.1, st.root1, st.root0, c.2.2, r.m⟩
    else
      .ok ⟨r.g, st.root1, st.root0, st.m1, r.m⟩
  else do
    let mm ← refineMaps st.g st.root0 st.root1 st.m0 st.m1 fuel
    if mm.1.length ≠ mm.2.length then .error .assertViolation
    else if mm.1.length ≠ st.g.nodes.length then .error .assertViolation
    else do
      let r ← improve pb st.g mm.1 mm.2 st.root0 q
      .ok ⟨r.g, st.root0, st.root1, r.m0, r.m1⟩

/-- Mirror of the prefix of `extend` up to the near-neighbor query: the
radius `extend` passes to `nodesWithinBall`, or `none` when an early
return fires before the query. -/
def extendRadiusUsed {C : Type} [DecidableEq C] (pb : Pb C) (g : Roadmap C)
    (target : Node) (q : C) : Option Scal :=
  match g.nearestNode pb (some (g.cmp target)) q with
  | none => none
  | some nd =>
    if nd.2 < eps16 then none
    else
      match g.cfgOf nd.1 with
      | none => none
      | some nearCfg =>
        match buildPath pb nearCfg q pb.extendMaxLength true with
        | none => none
        | some p => if p.plen < eps10 then none else some (ballRadius pb g.nodes.length)

/-- Mirror of the prefix of `improve` up to the near-neighbor query: the
radius `improve` passes to `nodesWithinBall`, or `none` when an early
return fires before the query. -/
def improveRadiusUsed {C : Type} [DecidableEq C] (pb : Pb C) (g : Roadmap C) (q : C) :
    Option Scal :=
  match g.nearestNode pb none q with
  | none => none
  | some nd =>
    if nd.2 < eps16 then none
    else
      match g.cfgOf nd.1 with
      | none => none
      | some nearCfg =>
        match buildPath pb nearCfg q pb.extendMaxLength true with
        | none => none
        | some p => if p.plen < eps10 then none else some (ballRadius pb g.nodes.length)

/-- The ball radius as the spec words it (§4.4 step 3, §8 invariant 6):
"min(γ · (ln N / N)^(1/d), L_max) computed from the pre-call node count N",
with the same collaborator functions standing for ln and power. -/
def specBallRadius {C : Type} (pb : Pb C) (nn : Nat) : Scal :=
  min (pb.gamma * pb.powF (pb.logF (nn : Scal) / (nn : Scal)) (1 / (pb.numberDof : Scal)))
    pb.extendMaxLength

/-- A three-node roadmap: edges `0 → 1` of length 1 and `0 → 2` of length 2
(configurations `0, 1, 2`, one component). -/
def gPop : Roadmap ℚ :=
  ⟨[⟨0, 0⟩, ⟨1, 1⟩, ⟨2, 2⟩],
   [⟨0, 1, ⟨0, 1, 1⟩⟩, ⟨0, 2, ⟨0, 2, 2⟩⟩],
   [(0, 0), (1, 0), (2, 0)], 3, 1⟩

/-- Collaborators for the cost-increase scenario: nearest to the sample
`1/2` is the node at configuration `2`; the validator truncates the path
`2 → 1/2` to the prefix ending exactly at configuration `1` (an existing
node of the same component) and rejects the zero-length path at `1`. -/
def pbInc : Pb ℚ :=
  { dist := fun a b =>
      if a = 2 ∧ b = 1 / 2 then 1 / 5
      else if a = 1 ∧ b = 1 then 0
      else 9
    steer := fun a b =>
      if a = 2 ∧ b = 1 / 2 then some ⟨2, 1 / 2, 1 / 5⟩
      else if a = 1 ∧ b = 1 then some ⟨1, 1, 0⟩
      else none
    projector := none
    extractTo := fun p _ => p
    pvalid := fun p =>
      if p = ⟨2, 1 / 2, 1 / 5⟩ then (false, some ⟨2, 1, 3 / 20⟩)
      else if p = ⟨1, 1, 0⟩ then (false, none)
      else (true, some p)
    logF := fun _ => 1
    powF := fun _ _ => 1
    gamma := 1 / 100
    extendMaxLength := 1
    numberDof := 2 }

/-- Growth-phase roadmap for the cost-increase scenario: start tree
`{0 ↦ cfg 0, 1 ↦ cfg 1, 2 ↦ cfg 2}` (component 0) and goal root
`3 ↦ cfg 100` (component 1), all tree edges of length 1. -/
def gInc : Roadmap ℚ :=
  ⟨[⟨0, 0⟩, ⟨1, 1⟩, ⟨2, 2⟩, ⟨3, 100⟩],
   [⟨0, 1, ⟨0, 1, 1⟩⟩, ⟨1, 0, ⟨1, 0, 1⟩⟩, ⟨0, 2, ⟨0, 2, 1⟩⟩, ⟨2, 0, ⟨2, 0, 1⟩⟩],
   [(0, 0), (1, 0), (2, 0), (3, 1)], 4, 2⟩

/-- The planner state of the cost-increase scenario: start tree rooted at
node 0 with parent map `{0 ↦ none, 1 ↦ edge 0→1, 2 ↦ edge 0→2}` (so
node 1 has cost 1), goal root 3. -/
def stInc : PState ℚ :=
  ⟨gInc, 0, 3,
   [(0, none), (1, some ⟨0, 1, ⟨0, 1, 1⟩⟩), (2, some ⟨0, 2, ⟨0, 2, 1⟩⟩)],
   [(3, none)]⟩

/-- Collaborators for the root-repoint scenario: nearest to the sample `-5`
is the node at configuration `10` (under a spec-conformant, merely
non-negative distance), and the validator truncates the path `10 → -5` to
the prefix ending exactly at the root's configuration `0`. -/
def pbRoot : Pb ℚ :=
  { dist := fun a b =>
      if a = 10 ∧ b = -5 then 1
      else if a = 0 ∧ b = -5 then 50
      else if a = 0 ∧ b = 0 then 0
      else 9
    steer := fun a b =>
      if a = 10 ∧ b = -5 then some ⟨10, -5, 1⟩
      else if a = 0 ∧ b = 0 then some ⟨0, 0, 0⟩
      else none
    projector := none
    extractTo := fun p _ => p
    pvalid := fun p =>
      if p = ⟨10, -5, 1⟩ then (false, some ⟨10, 0, 2 / 3⟩)
      else if p = ⟨0, 0, 0⟩ then (false, none)
      else (true, some p)
    logF := fun _ => 1
    powF := fun _ _ => 1
    gamma := 1 / 100
    extendMaxLength := 1
    numberDof := 2 }

/-- Growth-phase state for the root-repoint scenario: start tree
`{0 ↦ cfg 0 (root), 1 ↦ cfg 10}` (component 0), goal root `2 ↦ cfg 100`
(component 1). -/
def stRoot : PState ℚ :=
  ⟨⟨[⟨0, 0⟩, ⟨1, 10⟩, ⟨2, 100⟩],
    [⟨0, 1, ⟨0, 10, 2⟩⟩, ⟨1, 0, ⟨10, 0, 2⟩⟩],
    [(0, 0), (1, 0), (2, 1)], 3, 2⟩,
   0, 2,
   [(0, none), (1, some ⟨0, 1, ⟨0, 10, 2⟩⟩)],
   [(2, none)]⟩

/-- Collaborators for the merge scenario: the sampled configuration `5` is
exactly the goal root's configuration, steering reaches it in one step and
everything validates. -/
def pbMrg : Pb ℚ :=
  { dist := fun a b => if a = 0 ∧ b = 5 then 5 else 9
    steer := fun a b => if a = 0 ∧ b = 5 then some ⟨0, 5, 5⟩ else none
    projector := none
    extractTo := fun p _ => p
    pvalid := fun p => (true, some p)
    logF := fun _ => 1
    powF := fun _ _ => 1
    gamma := 1 / 100
    extendMaxLength := 10
    numberDof := 2 }

/-- Growth-phase state for the merge scenario: start root `0 ↦ cfg 0`
(component 0) and goal root `1 ↦ cfg 5` (component 1), no edges yet. -/
def stMrg : PState ℚ :=
  ⟨⟨[⟨0, 0⟩, ⟨1, 5⟩], [], [(0, 0), (1, 1)], 2, 2⟩, 0, 1, [(0, none)], [(1, none)]⟩

/-- Collaborators for the stale-`near` scenario in refinement: nearest to
the sample `5/2` is node 1 (configuration 2); node 0 (configuration 0,
root of `toRoot[0]`) offers a much better parent under `toRoot[0]` but a
poor one under `toRoot[1]`; everything validates. -/
def pbStale : Pb ℚ :=
  { dist := fun a b =>
      if a = 2 ∧ b = 5 / 2 then 2 / 5
      else if a = 0 ∧ b = 5 / 2 then 9 / 20
      else 9
    steer := fun a b =>
      if a = 2 ∧ b = 5 / 2 then some ⟨2, 5 / 2, 2 / 5⟩
      else if a = 0 ∧ b = 5 / 2 then some ⟨0, 5 / 2, 1 / 10⟩
      else none
    projector := none
    extractTo := fun p _ => p
    pvalid := fun p => (true, some p)
    logF := fun _ => 1
    powF := fun _ _ => 1
    gamma := 1
    extendMaxLength := 1
    numberDof := 2 }

/-- Refinement-phase state for the stale-`near` scenario: one component
with nodes `0 ↦ cfg 0` (root of `toRoot[0]`), `1 ↦ cfg 2`, `2 ↦ cfg 10`
(root of `toRoot[1]`); `toRoot[0] = {0 ↦ none, 1 ↦ 0→1 (1), 2 ↦ 1→2 (1)}`,
`toRoot[1] = {2 ↦ none, 0 ↦ 2→0 (1), 1 ↦ 0→1 (5)}`. -/
def stStale : PState ℚ :=
  ⟨⟨[⟨0, 0⟩, ⟨1, 2⟩, ⟨2, 10⟩],
    [⟨0, 1, ⟨0, 2, 1⟩⟩, ⟨1, 0, ⟨2, 0, 1⟩⟩, ⟨1, 2, ⟨2, 10, 1⟩⟩, ⟨2, 1, ⟨10, 2, 1⟩⟩,
     ⟨2, 0, ⟨10, 0, 1⟩⟩, ⟨0, 1, ⟨0, 2, 5⟩⟩],
    [(0, 0), (1, 0), (2, 0)], 3, 1⟩,
   0, 2,
   [(0, none), (1, some ⟨0, 1, ⟨0, 2, 1⟩⟩), (2, some ⟨1, 2, ⟨2, 10, 1⟩⟩)],
   [(2, none), (0, some ⟨2, 0, ⟨10, 0, 1⟩⟩), (1, some ⟨0, 1, ⟨0, 2, 5⟩⟩)]⟩

/-- A parent map whose chain breaks: node 1's parent edge comes from node
0, which is not a key of the map. -/
def mOrphan : ParentMap ℚ := [(1, some ⟨0, 1, ⟨0, 1, 1⟩⟩)]

/-- A one-entry parent map and an edge whose `to` is not the node being
re-parented. -/
def mAssert : ParentMap ℚ := [(0, none)]

/-- Edge into node 2 (so `e.to ≠ 1`) from the mapped node 0. -/
def eAssert : Edge ℚ := ⟨0, 2, ⟨0, 5, 1⟩⟩

/-- The state after the growth-phase step of the witness below: extend
fails on the sample 7 (steering declines), so the slots swap. -/
def stMrgSwapped : PState ℚ := ⟨stMrg.g, 1, 0, [(1, none)], [(0, none)]⟩

/-- A walk from `root` along roadmap out-edges: `Walk g root n l` says the
edge list `l` chains from `root` to `n` through edges of `g`. -/
inductive Walk {C : Type} (g : Roadmap C) (root : Node) : Node → List (Edge C) → Prop where
  | nil : Walk g root root []
  | snoc (e : Edge C) (l : List (Edge C)) (he : e ∈ g.edges) (hw : Walk g root e.src l) :
      Walk g root e.dst (l ++ [e])

/-- Accumulated cost of a walk: the sum of its edge-path lengths. -/
def wcost {C : Type} (l : List (Edge C)) : Scal := (l.map fun e => e.path.plen).sum

/-- A node is reachable from `root` by following out-edges. -/
def Reach {C : Type} (g : Roadmap C) (root n : Node) : Prop := ∃ l, Walk g root n l

/-- Soundness of a queue or visited entry of `computeParentMap`: its cost is
the cost of an actual walk from the root whose last edge is its parent
(the empty walk for the initial root entry). -/
def EntryOK {C : Type} (g : Roadmap C) (root n : Node) (par : Option (Edge C)) (c : Scal) :
    Prop :=
  ∃ l, Walk g root n l ∧ wcost l = c ∧ l.getLast? = par

/-- The loop invariant of `computeParentMap`: every queue and visited entry
is sound; visited keys are distinct; the root is recorded with no parent
and cost 0 once anything is (before the first pop the queue holds exactly
the initial entry); and every out-edge of a visited node is either already
relaxed in `visited` or still pending in the queue with a cost no worse
than relaxing it now would give. -/
structure CpmInv {C : Type} (g : Roadmap C) (root : Node)
    (visited : List (Node × Option (Edge C) × Scal)) (queue : List (WNode C)) : Prop where
  qok : ∀ w ∈ queue, EntryOK g root w.node w.par w.cost
  vok : ∀ t ∈ visited, EntryOK g root t.1 t.2.1 t.2.2
  keys : (visited.map fun t => t.1).Nodup
  rootv : (visited = [] ∧ queue = [⟨root, none, 0⟩]) ∨ vFind visited root = some (none, 0)
  relax : ∀ t ∈ visited, ∀ e ∈ g.edges, e.src = t.1 →
    (∃ pc, vFind visited e.dst = some pc ∧ pc.2 ≤ t.2.2 + e.path.plen) ∨
    (∃ w ∈ queue, w.node = e.dst ∧ w.cost ≤ t.2.2 + e.path.plen)

/-- The parent map `computeParentMap` produces on `gPop` from root 0. -/
def mPop : ParentMap ℚ :=
  [(0, none), (2, some ⟨0, 2, ⟨0, 2, 2⟩⟩), (1, some ⟨0, 1, ⟨0, 1, 1⟩⟩)]

/-- A merged two-node roadmap with its pair of forward/reverse edges. -/
def gCov : Roadmap ℚ :=
  ⟨[⟨0, 0⟩, ⟨1, 5⟩], [⟨0, 1, ⟨0, 5, 5⟩⟩, ⟨1, 0, ⟨5, 0, 5⟩⟩], [(0, 0), (1, 0)], 2, 1⟩

/-- The rebuilt map rooted at node 0 of `gCov`. -/
def maCov : ParentMap ℚ := [(0, none), (1, some ⟨0, 1, ⟨0, 5, 5⟩⟩)]

/-- The rebuilt map rooted at node 1 of `gCov`. -/
def mbCov : ParentMap ℚ := [(1, none), (0, some ⟨1, 0, ⟨5, 0, 5⟩⟩)]

/-- The parent chain of `n` in map `m`: the successive parent edges walked
by `computeCost`, ending at a `None` entry. -/
inductive PChain {C : Type} (m : ParentMap C) : Node → List (Edge C) → Prop where
  | nil (n : Node) (h : pmFind m n = some none) : PChain m n []
  | cons (n : Node) (e : Edge C) (l : List (Edge C)) (h : pmFind m n = some (some e))
      (ht : PChain m e.src l) : PChain m n (e :: l)

/-- The nodes `computeCost` reads while walking the chain `l` from `n`. -/
def spine {C : Type} (n : Node) (l : List (Edge C)) : List Node :=
  n :: l.map fun e => e.src

/-- Well-formed parent map: every key's parent chain terminates at a root
entry (the map is acyclic and closed), and every entry's path length is
non-negative. -/
structure PMWf {C : Type} (m : ParentMap C) : Prop where
  total : ∀ n, (pmFind m n).isSome → ∃ l, PChain m n l
  nonneg : ∀ n e, pmFind m n = some (some e) → 0 ≤ e.path.plen

/-- Invariant of the choose-parent loop: the best cost is the chain cost of
the best parent plus the best path length, the best path length is
non-negative, and every recorded candidate path has non-negative length. -/
structure ChooseInv {C : Type} (m : ParentMap C) (st : Choice C) : Prop where
  chain : ∃ lc, PChain m st.near lc ∧ st.costq = wcost lc + st.path.plen
  pnn : 0 ≤ st.path.plen
  recs : ∀ r ∈ st.recs, ∀ p2, r.2 = some p2 → 0 ≤ p2.plen

/-- Success of a bound `Except` computation decomposes into successes of
its two stages. -/
theorem exceptBind_ok_iff {E A B : Type} (x : Except E A) (f : A → Except E B) (b : B) :
    (x >>= f) = .ok b ↔ ∃ a, x = .ok a ∧ f a = .ok b := by
  cases x <;> simp [Bind.bind, Except.bind]

/-- A successful `extendCore` reports success and hands back the
overwritten configuration: the end of the capped validated path. -/
theorem extendCore_ok_fields {C : Type} [DecidableEq C] (pb : Pb C) (g : Roadmap C)
    (m : ParentMap C) (cc : Nat) (near0 : Node) (p : Path C) (out : ExtendOut C)
    (h : extendCore pb g m cc near0 p = .ok out) : out.success = true ∧ out.q = p.pend := by
  simp only [extendCore] at h
  rw [exceptBind_ok_iff] at h
  obtain ⟨c0, -, h⟩ := h
  rw [exceptBind_ok_iff] at h
  obtain ⟨ch, -, h⟩ := h
  split at h
  · exact absurd h (by simp)
  · rw [exceptBind_ok_iff] at h
    obtain ⟨m1, -, h⟩ := h
    rw [exceptBind_ok_iff] at h
    obtain ⟨pr3, -, h⟩ := h
    injection h with h
    rw [← h]
    exact ⟨rfl, rfl⟩

/-- C6: whenever `extend` or `improve` reaches its near-neighbor ball query
(the `...RadiusUsed` mirrors return `some` exactly then, and a successful
call always reaches it), the radius passed to `nodesWithinBall` equals the
spec's formula min(γ · (ln N / N)^(1/d), L_max) evaluated at the node
count of the roadmap as it is BEFORE the new node is inserted (the
insertion happens inside `extendCore` / `improveCore`, after the query). -/
theorem ball_radius_formula_pre_insertion {C : Type} [DecidableEq C] (pb : Pb C) (g : Roadmap C)
    (target : Node) (q : C) :
    (∀ r, extendRadiusUsed pb g target q = some r → r = specBallRadius pb g.nodes.length) ∧
    (∀ r, improveRadiusUsed pb g q = some r → r = specBallRadius pb g.nodes.length) ∧
    (∀ m out, extend pb g m target q = .ok out → out.success = true →
      extendRadiusUsed pb g target q = some (specBallRadius pb g.nodes.length)) ∧
    (∀ m0 m1 root0 out, improve pb g m0 m1 root0 q = .ok out → out.success = true →
      improveRadiusUsed pb g q = some (specBallRadius pb g.nodes.length)) := by
  refine ⟨fun r h => ?_, fun r h => ?_, fun m out h hs => ?_, fun m0 m1 root0 out h hs => ?_⟩
  · simp only [extendRadiusUsed] at h
    cases hn : g.nearestNode pb (some (g.cmp target)) q with
    | none => simp only [hn] at h; exact Option.noConfusion h
    | some nd =>
      simp only [hn] at h
      by_cases h16 : nd.2 < eps16
      · rw [if_pos h16] at h; exact Option.noConfusion h
      · rw [if_neg h16] at h
        cases hc : g.cfgOf nd.1 with
        | none => simp only [hc] at h; exact Option.noConfusion h
        | some cfg =>
          simp only [hc] at h
          cases hb : buildPath pb cfg q pb.extendMaxLength true with
          | none => simp only [hb] at h; exact Option.noConfusion h
          | some p =>
            simp only [hb] at h
            by_cases h10 : p.plen < eps10
            · rw [if_pos h10] at h; exact Option.noConfusion h
            · rw [if_neg h10] at h; exact (Option.some_inj.mp h).symm
  · simp only [improveRadiusUsed] at h
    cases hn : g.nearestNode pb none q with
    | none => simp only [hn] at h; exact Option.noConfusion h
    | some nd =>
      simp only [hn] at h
      by_cases h16 : nd.2 < eps16
      · rw [if_pos h16] at h; exact Option.noConfusion h
      · rw [if_neg h16] at h
        cases hc : g.cfgOf nd.1 with
        | none => simp only [hc] at h; exact Option.noConfusion h
        | some cfg =>
          simp only [hc] at h
          cases hb : buildPath pb cfg q pb.extendMaxLength true with
          | none => simp only [hb] at h; exact Option.noConfusion h
          | some p =>
            simp only [hb] at h
            by_cases h10 : p.plen < eps10
            · rw [if_pos h10] at h; exact Option.noConfusion h
            · rw [if_neg h10] at h; exact (Option.some_inj.mp h).symm
  · simp only [extend] at h
    cases hn : g.nearestNode pb (some (g.cmp target)) q with
    | none => simp only [hn] at h; exact Except.noConfusion h
    | some nd =>
      simp only [hn] at h
      by_cases h16 : nd.2 < eps16
      · rw [if_pos h16] at h
        injection h with h
        rw [← h] at hs
        exact absurd hs (by simp)
      · rw [if_neg h16] at h
        cases hc : g.cfgOf nd.1 with
        | none => simp only [hc] at h; exact Except.noConfusion h
        | some cfg =>
          simp only [hc] at h
          cases hb : buildPath pb cfg q pb.extendMaxLength true with
          | none =>
            simp only [hb] at h
            injection h with h
            rw [← h] at hs
            exact absurd hs (by simp)
          | some p =>
            simp only [hb] at h
            by_cases h10 : p.plen < eps10
            · rw [if_pos h10] at h
              injection h with h
              rw [← h] at hs
              exact absurd hs (by simp)
            · simp only [extendRadiusUsed, hn, if_neg h16, hc, hb, if_neg h10]
              rfl
  · simp only [improve] at h
    cases hn : g.nearestNode pb none q with
    | none => simp only [hn] at h; exact Except.noConfusion h
    | some nd =>
      simp only [hn] at h
      by_cases h16 : nd.2 < eps16
      · rw [if_pos h16] at h
        injection h with h
        rw [← h] at hs
        exact absurd hs (by simp)
      · rw [if_neg h16] at h
        cases hc : g.cfgOf nd.1 with
        | none => simp only [hc] at h; exact Except.noConfusion h
        | some cfg =>
          simp only [hc] at h
          cases hb : buildPath pb cfg q pb.extendMaxLength true with
          | none =>
            simp only [hb] at h
            injection h with h
            rw [← h] at hs
            exact absurd hs (by simp)
          | some p =>
            simp only [hb] at h
            by_cases h10 : p.plen < eps10
            · rw [if_pos h10] at h
              injection h with h
              rw [← h] at hs
              exact absurd hs (by simp)
            · simp only [improveRadiusUsed, hn, if_neg h16, hc, hb, if_neg h10]
              rfl

/-- C9: `extend(target, parentMap, q)` returns false with the roadmap, the
parent map and `q` all unchanged whenever the nearest node of the target
component is closer than `1e-16`, or the capped validated path is absent
or shorter than `1e-10`; otherwise the configuration it hands back is the
end of the built path (`q` is overwritten with `p.end()` before the
insertion work proceeds). -/
theorem extend_early_return_spec {C : Type} [DecidableEq C] (pb : Pb C) (g : Roadmap C)
    (m : ParentMap C) (target : Node) (q : C) :
    (∀ near d, g.nearestNode pb (some (g.cmp target)) q = some (near, d) → d < eps16 →
      extend pb g m target q = .ok ⟨false, g, m, q⟩) ∧
    (∀ near d nearCfg, g.nearestNode pb (some (g.cmp target)) q = some (near, d) →
      ¬ d < eps16 → g.cfgOf near = some nearCfg →
      buildPath pb nearCfg q pb.extendMaxLength true = none →
      extend pb g m target q = .ok ⟨false, g, m, q⟩) ∧
    (∀ near d nearCfg p, g.nearestNode pb (some (g.cmp target)) q = some (near, d) →
      ¬ d < eps16 → g.cfgOf near = some nearCfg →
      buildPath pb nearCfg q pb.extendMaxLength true = some p → p.plen < eps10 →
      extend pb g m target q = .ok ⟨false, g, m, q⟩) ∧
    (∀ near d nearCfg p out, g.nearestNode pb (some (g.cmp target)) q = some (near, d) →
      ¬ d < eps16 → g.cfgOf near = some nearCfg →
      buildPath pb nearCfg q pb.extendMaxLength true = some p → ¬ p.plen < eps10 →
      extend pb g m target q = .ok out → out.success = true ∧ out.q = p.pend) := by
  refine ⟨fun near d hn hd => ?_, fun near d c hn hd hc hb => ?_,
    fun near d c p hn hd hc hb hp => ?_, fun near d c p out hn hd hc hb hp h => ?_⟩
  · simp only [extend, hn, if_pos hd]
  · simp only [extend, hn, if_neg hd, hc, hb]
  · simp only [extend, hn, if_neg hd, hc, hb, if_pos hp]
  · simp only [extend, hn, if_neg hd, hc, hb, if_neg hp] at h
    exact extendCore_ok_fields _ _ _ _ _ _ _ h

/-- C1 counterexample: on the roadmap `gPop` — two edges out of the root, of
lengths 1 and 2 — the queue of `computeParentMap` pops accumulated costs in
the order `[0, 2, 1]`: after the root, the COSTLIER entry pops first.  A
`std::priority_queue` whose `operator<` compares costs is a max-heap, so
expansion is not best-first and the pop order is not ascending as the claim
states. -/
theorem cpm_pop_order_not_ascending :
    cpmPops gPop 0 10 = some [0, 2, 1] ∧
      ¬ List.Sorted (fun a b => a ≤ b) ([0, 2, 1] : List Scal) := by
  constructor
  · norm_num [cpmPops, cpmPopsLoop, popBest, vFind, vSet, pushKids, Roadmap.outEdges,
      gPop, List.filter]
  · norm_num [List.Sorted]

/-- C3 counterexample: a growth-phase `one_step` on `stInc` (two components)
where the validated extension path from the nearest node (configuration 2)
ends exactly at configuration 1, an EXISTING node of the same tree, so
`addNode` returns that node and the unconditional `setParent(qnew, edge)`
overwrites its parent entry: node 1's cost to its root rises from `1` to
`23/20` across the iteration (after the growth-phase slot swap the start
tree's map sits in slot 1). -/
theorem oneStep_cost_to_root_increases :
    stInc.g.ccCount = 2 ∧ computeCost stInc.m0 1 = .ok 1 ∧
      (oneStep pbInc stInc (1 / 2) 9).map (fun s => computeCost s.m1 1) =
        .ok (.ok (23 / 20)) ∧
      (1 : Scal) < 23 / 20 := by
  refine ⟨?_, ?_, ?_, by norm_num⟩
  · norm_num [Roadmap.ccCount, Roadmap.cmp, clookup, stInc, gInc, List.dedup, List.pwFilter]
  · norm_num [computeCost, computeCostFuel, pmFind, stInc]
  · norm_num [oneStep, extend, extendCore, improve, improveCore, connect, refineMaps, choosePass, rewirePass,
      improvePass, buildPath, pathOk, computeCost, computeCostFuel, pmFind, pmSet, setParent,
      ballRadius, eps16, eps10, Roadmap.nearestNode, Roadmap.nodesWithinBall, Roadmap.cmp,
      Roadmap.ccCount, Roadmap.cfgOf, Roadmap.addNode, Roadmap.addEdge, Roadmap.outEdges,
      clookup, List.filter, List.find?, List.dedup, List.pwFilter, List.foldl,
      Path.reverse, Except.map, Except.instMonad, Except.bind, Except.pure, bind, pure,
      pbInc, stInc, gInc]

/-- C10 counterexample: a growth-phase `one_step` on `stRoot` in which the
capped validated extension path from the nearest node (configuration 10)
ends exactly at the root's configuration 0, so `addNode` dedups onto the
root and the unconditional `setParent(qnew, edge)` re-points the root's
entry of its own tree's map from `none` to the incoming edge `1 → 0`: the
root's parent entry does not remain `None`.  (Every collaborator obeys its
stated contract: the distance is merely non-negative, and the validator
returns a prefix of the steered path.) -/
theorem oneStep_root_entry_repointed :
    pmFind stRoot.m0 stRoot.root0 = some none ∧
      (oneStep pbRoot stRoot (-5) 9).map (fun s => pmFind s.m1 stRoot.root0) =
        .ok (some (some ⟨1, 0, ⟨10, 0, 2 / 3⟩⟩)) := by
  constructor
  · norm_num [pmFind, stRoot]
  · norm_num [oneStep, extend, extendCore, improve, improveCore, connect, refineMaps, choosePass, rewirePass,
      improvePass, buildPath, pathOk, computeCost, computeCostFuel, pmFind, pmSet, setParent,
      ballRadius, eps16, eps10, Roadmap.nearestNode, Roadmap.nodesWithinBall, Roadmap.cmp,
      Roadmap.ccCount, Roadmap.cfgOf, Roadmap.addNode, Roadmap.addEdge, Roadmap.outEdges,
      clookup, List.filter, List.find?, List.dedup, List.pwFilter, List.foldl,
      Path.reverse, Except.map, Except.instMonad, Except.bind, Except.pure, bind, pure,
      pbRoot, stRoot]

/-- C5 counterexample: a growth-phase `one_step` on `stMrg` in which the
extension reaches exactly the other root's configuration, `addNode` returns
that root and the edge insertion merges the two components: `oneStep` takes
the early `return` at the merge check and the root slots are left UNSWAPPED
(`roots[0]` still the old `roots[0]`). -/
theorem oneStep_merge_skips_swap :
    stMrg.g.ccCount = 2 ∧
      (oneStep pbMrg stMrg 5 9).map (fun s => (s.root0, s.root1)) =
        .ok (stMrg.root0, stMrg.root1) ∧
      (oneStep pbMrg stMrg 5 9).map (fun s => s.g.ccCount) = .ok 1 ∧
      (stMrg.root0, stMrg.root1) ≠ (stMrg.root1, stMrg.root0) := by
  refine ⟨?_, ?_, ?_, by norm_num [stMrg]⟩ <;>
    norm_num [oneStep, extend, extendCore, improve, improveCore, connect, refineMaps, choosePass, rewirePass,
      improvePass, buildPath, pathOk, computeCost, computeCostFuel, pmFind, pmSet, setParent,
      ballRadius, eps16, eps10, Roadmap.nearestNode, Roadmap.nodesWithinBall, Roadmap.cmp,
      Roadmap.ccCount, Roadmap.cfgOf, Roadmap.addNode, Roadmap.addEdge, Roadmap.outEdges,
      clookup, List.filter, List.find?, List.dedup, List.pwFilter, List.foldl,
      Path.reverse, Except.map, Except.instMonad, Except.bind, Except.pure, bind, pure,
      pbMrg, stMrg]

/-- C2: in the refinement-phase `one_step` on `stStale`, the nearest node to
the sample `5/2` is node 1 (configuration 2), but in the k = 1 pass of
`improve` the baseline parent is node 0 — the winner of the k = 0 pass,
because the source never resets `near` between the passes — while the
baseline path is still the one built from node 1's configuration: the edge
recorded for the new node 3 in `toRoot[1]` goes out of node 0
(configuration 0) yet carries the path starting at configuration 2. -/
theorem improve_second_pass_stale_near :
    stStale.g.ccCount = 1 ∧
      Roadmap.nearestNode stStale.g pbStale none (5 / 2) = some (1, 2 / 5) ∧
      (oneStep pbStale stStale (5 / 2) 9).map (fun s => pmFind s.m1 3) =
        .ok (some (some ⟨0, 3, ⟨2, 5 / 2, 2 / 5⟩⟩)) ∧
      stStale.g.cfgOf 0 = some 0 ∧ stStale.g.cfgOf 1 = some 2 ∧
      (⟨2, 5 / 2, 2 / 5⟩ : Path ℚ).pstart ≠ (0 : ℚ) := by
  refine ⟨?_, ?_, ?_, ?_, ?_, by norm_num⟩ <;>
    norm_num [oneStep, extend, extendCore, improve, improveCore, connect, refineMaps, choosePass, rewirePass,
      improvePass, buildPath, pathOk, computeCost, computeCostFuel, pmFind, pmSet, setParent,
      ballRadius, eps16, eps10, Roadmap.nearestNode, Roadmap.nodesWithinBall, Roadmap.cmp,
      Roadmap.ccCount, Roadmap.cfgOf, Roadmap.addNode, Roadmap.addEdge, Roadmap.outEdges,
      clookup, List.filter, List.find?, List.dedup, List.pwFilter, List.foldl,
      Path.reverse, Except.map, Except.instMonad, Except.bind, Except.pure, bind, pure,
      pbStale, stStale]

/-- C4: on the map `{1 ↦ edge 0→1}` with node 0 unmapped, the chain from
node 1 breaks before reaching a `None` parent, and the embedded
`computeCost` reports `endDeref` — the dereference of the `end()` iterator
in the loop condition `current->second`, which the source evaluates BEFORE
the `current == map.end()` guard — and not the claimed `OrphanNode`
error, whose throw is unreachable. -/
theorem computeCost_end_deref_not_orphan :
    computeCost mOrphan 1 = .error .endDeref ∧ PErr.endDeref ≠ PErr.orphanNode := by
  constructor
  · norm_num [computeCost, computeCostFuel, pmFind, mOrphan]
  · decide

/-- C8 counterexample: `setParent` called with an edge whose `to` field is
not the node being re-parented (while the edge's `from` IS a key of the
map, so only that one precondition is violated) fails the C `assert`, not
with the `ParentMapInconsistent` error the claim names. -/
theorem setParent_to_mismatch_asserts :
    setParent mAssert 1 (some eAssert) = .error .assertViolation ∧
      PErr.assertViolation ≠ PErr.parentMapInconsistent ∧
      eAssert.dst ≠ 1 ∧ (pmFind mAssert eAssert.src).isSome = true := by
  refine ⟨?_, by decide, by decide, by decide⟩
  norm_num [setParent, pmFind, mAssert, eAssert]

/-- C8 (amended): `setParent(map, n, e)` fails the assertion when the edge
is present and `e.to ≠ n`; fails with `ParentMapInconsistent` when
`e.to = n` but `e.from` is not a key of the map; and otherwise records the
entry.  On failure it returns the error before touching the map. -/
theorem setParent_failure_spec {C : Type} [DecidableEq C] (m : ParentMap C) (n : Node)
    (e : Edge C) :
    (e.dst ≠ n → setParent m n (some e) = .error .assertViolation) ∧
    (e.dst = n → pmFind m e.src = none → setParent m n (some e) = .error .parentMapInconsistent) ∧
    (e.dst = n → (pmFind m e.src).isSome → setParent m n (some e) = .ok (pmSet m n (some e))) ∧
    setParent m n none = .ok (pmSet m n none) := by
  refine ⟨fun h => ?_, fun h1 h2 => ?_, fun h1 h2 => ?_, rfl⟩
  · simp [setParent, h]
  · simp [setParent, h1, h2]
  · simp only [setParent, h1]
    rw [if_neg (by simp), if_neg (by simp [Option.isNone_iff_eq_none, ← Option.isSome_iff_ne_none, h2])]

/-- C5 (amended): every growth-phase `one_step` that returns ends by
swapping the root slots (and with them the map slots), EXCEPT when the
successful extend has merged the two roots' components: the source then
returns early, before the `std::swap` calls, and the slot order is left
unswapped. -/
theorem oneStep_growth_swap_unless_merged {C : Type} [DecidableEq C] (pb : Pb C)
    (st st2 : PState C) (q : C) (fuel : Nat)
    (hcc : st.g.ccCount = 2) (h : oneStep pb st q fuel = .ok st2) :
    (st2.root0 = st.root1 ∧ st2.root1 = st.root0) ∨
    (st2.root0 = st.root0 ∧ st2.root1 = st.root1 ∧
      st2.g.cmp st.root0 = st2.g.cmp st.root1) := by
  simp only [oneStep, if_pos hcc] at h
  rw [exceptBind_ok_iff] at h
  obtain ⟨r, hext, h⟩ := h
  by_cases hs : r.success
  · rw [if_pos hs] at h
    by_cases hm : r.g.cmp st.root0 = r.g.cmp st.root1
    · rw [if_pos hm] at h
      injection h with h
      rw [← h]
      exact Or.inr ⟨rfl, rfl, hm⟩
    · rw [if_neg hm] at h
      rw [exceptBind_ok_iff] at h
      obtain ⟨c, -, h⟩ := h
      injection h with h
      rw [← h]
      exact Or.inl ⟨rfl, rfl⟩
  · rw [if_neg hs] at h
    injection h with h
    rw [← h]
    exact Or.inl ⟨rfl, rfl⟩

/-- Witness for C5 at a concrete input: on `stMrg` with sample 7 the step
returns with the slots swapped (the left disjunct). -/
theorem oneStep_growth_swap_unless_merged_wit :
    (stMrgSwapped.root0 = stMrg.root1 ∧ stMrgSwapped.root1 = stMrg.root0) ∨
    (stMrgSwapped.root0 = stMrg.root0 ∧ stMrgSwapped.root1 = stMrg.root1 ∧
      stMrgSwapped.g.cmp stMrg.root0 = stMrgSwapped.g.cmp stMrg.root1) := by
  have hcc : stMrg.g.ccCount = 2 := by
    norm_num [Roadmap.ccCount, Roadmap.cmp, clookup, stMrg, List.dedup, List.pwFilter]
  have h : oneStep pbMrg stMrg 7 9 = .ok stMrgSwapped := by
    norm_num [oneStep, extend, extendCore, improve, improveCore, connect, refineMaps,
      choosePass, rewirePass, improvePass, buildPath, pathOk, computeCost, computeCostFuel,
      pmFind, pmSet, setParent, ballRadius, eps16, eps10, Roadmap.nearestNode,
      Roadmap.nodesWithinBall, Roadmap.cmp, Roadmap.ccCount, Roadmap.cfgOf, Roadmap.addNode,
      Roadmap.addEdge, Roadmap.outEdges, clookup, List.filter, List.find?, List.dedup,
      List.pwFilter, List.foldl, Path.reverse, Except.map, Except.instMonad, Except.bind,
      Except.pure, bind, pure, pbMrg, stMrg, stMrgSwapped]
  exact oneStep_growth_swap_unless_merged pbMrg stMrg stMrgSwapped 7 9 hcc h

theorem wcost_nil {C : Type} : wcost ([] : List (Edge C)) = 0 := rfl

theorem wcost_append {C : Type} (a b : List (Edge C)) : wcost (a ++ b) = wcost a + wcost b := by
  simp [wcost]

theorem walk_edges_mem {C : Type} {g : Roadmap C} {root n : Node} {l : List (Edge C)}
    (h : Walk g root n l) : ∀ e ∈ l, e ∈ g.edges := by
  induction h with
  | nil => simp
  | snoc e l he hw ih =>
    intro x hx
    rcases List.mem_append.mp hx with hx | hx
    · exact ih x hx
    · rw [List.mem_singleton.mp hx]; exact he

theorem wcost_nonneg {C : Type} {g : Roadmap C} {root n : Node} {l : List (Edge C)}
    (hlen : ∀ e ∈ g.edges, 0 ≤ e.path.plen) (h : Walk g root n l) : 0 ≤ wcost l := by
  have : ∀ e ∈ l.map (fun e => e.path.plen), 0 ≤ e := by
    intro x hx
    obtain ⟨e, he, rfl⟩ := List.mem_map.mp hx
    exact hlen e (walk_edges_mem h e he)
  exact List.sum_nonneg this

theorem walk_last_dst {C : Type} {g : Roadmap C} {root n : Node} {l : List (Edge C)}
    {e : Edge C} (h : Walk g root n l) (hl : l.getLast? = some e) : e.dst = n ∧ e ∈ g.edges := by
  cases h with
  | nil => simp at hl
  | snoc e2 l2 he hw =>
    rw [List.getLast?_append_cons] at hl
    simp only [List.getLast?_singleton, Option.some_inj] at hl
    subst hl
    exact ⟨rfl, he⟩

theorem vFind_eq_none_iff {C : Type} (v : List (Node × Option (Edge C) × Scal)) (n : Node) :
    vFind v n = none ↔ n ∉ v.map (fun t => t.1) := by
  induction v with
  | nil => simp [vFind]
  | cons t v ih =>
    obtain ⟨k, pc⟩ := t
    by_cases hk : k = n
    · subst hk; simp [vFind]
    · simp [vFind, hk, ih, Ne.symm hk]

theorem vFind_some_mem {C : Type} {v : List (Node × Option (Edge C) × Scal)} {n : Node}
    {pc : Option (Edge C) × Scal} (h : vFind v n = some pc) : (n, pc) ∈ v := by
  induction v with
  | nil => simp [vFind] at h
  | cons t v ih =>
    obtain ⟨k, pc2⟩ := t
    by_cases hk : k = n
    · subst hk
      rw [show vFind ((k, pc2) :: v) k = some pc2 from by simp [vFind]] at h
      simp [Option.some_inj.mp h]
    · simp only [vFind, if_neg hk] at h
      exact List.mem_cons_of_mem _ (ih h)

theorem vFind_append_left {C : Type} {v : List (Node × Option (Edge C) × Scal)} {n : Node}
    {pc : Option (Edge C) × Scal} (w : List (Node × Option (Edge C) × Scal))
    (h : vFind v n = some pc) : vFind (v ++ w) n = some pc := by
  induction v with
  | nil => simp [vFind] at h
  | cons t v ih =>
    obtain ⟨k, pc2⟩ := t
    by_cases hk : k = n
    · subst hk; simp_all [vFind]
    · simp_all [vFind, hk]

theorem vFind_append_right {C : Type} {v : List (Node × Option (Edge C) × Scal)} {n : Node}
    (w : List (Node × Option (Edge C) × Scal)) (h : vFind v n = none) :
    vFind (v ++ w) n = vFind w n := by
  induction v with
  | nil => simp [vFind]
  | cons t v ih =>
    obtain ⟨k, pc2⟩ := t
    by_cases hk : k = n
    · subst hk; simp [vFind] at h
    · simp_all [vFind, hk]

theorem vFind_vSet_self {C : Type} {v : List (Node × Option (Edge C) × Scal)} {n : Node}
    {pc : Option (Edge C) × Scal} (e : Option (Edge C)) (c : Scal)
    (h : vFind v n = some pc) : vFind (vSet v n e c) n = some (e, c) := by
  induction v with
  | nil => simp [vFind] at h
  | cons t v ih =>
    obtain ⟨k, pc2⟩ := t
    by_cases hk : k = n
    · subst hk; simp [vFind, vSet]
    · simp only [vFind, if_neg hk] at h
      simp [vSet, hk, vFind, ih h]

theorem vFind_vSet_ne {C : Type} (v : List (Node × Option (Edge C) × Scal)) (n x : Node)
    (e : Option (Edge C)) (c : Scal) (hx : x ≠ n) : vFind (vSet v n e c) x = vFind v x := by
  induction v with
  | nil => simp [vFind, vSet, Ne.symm hx]
  | cons t v ih =>
    obtain ⟨k, pc2⟩ := t
    by_cases hk : k = n
    · subst hk; simp [vFind, vSet, Ne.symm hx]
    · by_cases hx2 : k = x
      · subst hx2; simp [vFind, vSet, hk]
      · simp [vFind, vSet, hk, hx2, ih]

theorem vSet_keys {C : Type} (v : List (Node × Option (Edge C) × Scal)) (n : Node)
    (e : Option (Edge C)) (c : Scal) (h : vFind v n ≠ none) :
    (vSet v n e c).map (fun t => t.1) = v.map (fun t => t.1) := by
  induction v with
  | nil => simp [vFind] at h
  | cons t v ih =>
    obtain ⟨k, pc2⟩ := t
    by_cases hk : k = n
    · subst hk; simp [vSet]
    · simp only [vFind, if_neg hk] at h
      simp [vSet, hk, ih h]

theorem vSet_mem {C : Type} {v : List (Node × Option (Edge C) × Scal)}
    {t : Node × Option (Edge C) × Scal} (n : Node) (e : Option (Edge C)) (c : Scal)
    (h : t ∈ vSet v n e c) : t = (n, e, c) ∨ t ∈ v := by
  induction v with
  | nil =>
    simp only [vSet, List.mem_singleton] at h
    exact Or.inl h
  | cons t2 v ih =>
    obtain ⟨k, pc2⟩ := t2
    simp only [vSet] at h
    by_cases hk : k = n
    · rw [if_pos hk] at h
      rcases List.mem_cons.mp h with h1 | h1
      · exact Or.inl (by rw [h1, hk])
      · exact Or.inr (List.mem_cons_of_mem _ h1)
    · rw [if_neg hk] at h
      rcases List.mem_cons.mp h with h1 | h1
      · exact Or.inr (by rw [h1]; exact List.mem_cons_self _ _)
      · rcases ih h1 with h2 | h2
        · exact Or.inl h2
        · exact Or.inr (List.mem_cons_of_mem _ h2)

theorem pmFind_of_vmap {C : Type} (v : List (Node × Option (Edge C) × Scal)) (n : Node) :
    pmFind (v.map fun t => (t.1, t.2.1)) n = (vFind v n).map (fun pc => pc.1) := by
  induction v with
  | nil => simp [pmFind, vFind]
  | cons t v ih =>
    obtain ⟨k, pc⟩ := t
    by_cases hk : k = n
    · subst hk; simp [pmFind, vFind]
    · simp [pmFind, vFind, hk, ih]

theorem popBest_perm {C : Type} (w : WNode C) (ws : List (WNode C)) :
    List.Perm (w :: ws) ((popBest w ws).1 :: (popBest w ws).2) := by
  induction ws generalizing w with
  | nil => simp [popBest]
  | cons x xs ih =>
    by_cases hc : w.cost < x.cost
    · simp only [popBest, if_pos hc]
      exact (List.Perm.cons w (ih x)).trans (List.Perm.swap (popBest x xs).1 w (popBest x xs).2)
    · simp only [popBest, if_neg hc]
      exact ((List.Perm.swap x w xs).trans (List.Perm.cons x (ih w))).trans
        (List.Perm.swap (popBest w xs).1 x (popBest w xs).2)

theorem pushKids_mem {C : Type} [DecidableEq C] {g : Roadmap C} {cur : WNode C}
    {x : WNode C} (h : x ∈ pushKids g cur) :
    ∃ e, e ∈ g.edges ∧ e.src = cur.node ∧ x = ⟨e.dst, some e, cur.cost + e.path.plen⟩ := by
  simp only [pushKids, List.mem_map, Roadmap.outEdges, List.mem_filter] at h
  obtain ⟨e, ⟨he, hsrc⟩, rfl⟩ := h
  exact ⟨e, he, by simpa using hsrc, rfl⟩

theorem pushKids_mem_of {C : Type} [DecidableEq C] {g : Roadmap C} {cur : WNode C}
    {e : Edge C} (he : e ∈ g.edges) (hsrc : e.src = cur.node) :
    (⟨e.dst, some e, cur.cost + e.path.plen⟩ : WNode C) ∈ pushKids g cur := by
  simp only [pushKids, List.mem_map, Roadmap.outEdges, List.mem_filter]
  exact ⟨e, ⟨he, by simpa using hsrc⟩, rfl⟩

theorem entryOK_kid {C : Type} {g : Roadmap C} {root : Node} {cur : WNode C} {e : Edge C}
    (hcur : EntryOK g root cur.node cur.par cur.cost) (he : e ∈ g.edges)
    (hsrc : e.src = cur.node) :
    EntryOK g root e.dst (some e) (cur.cost + e.path.plen) := by
  obtain ⟨l, hw, hc, -⟩ := hcur
  refine ⟨l ++ [e], Walk.snoc e l he (by rw [hsrc]; exact hw), ?_, ?_⟩
  · rw [wcost_append, hc]
    simp [wcost]
  · rw [List.getLast?_append_cons]
    rfl

theorem entryOK_nonneg {C : Type} {g : Roadmap C} {root n : Node} {par : Option (Edge C)}
    {c : Scal} (hlen : ∀ e ∈ g.edges, 0 ≤ e.path.plen) (h : EntryOK g root n par c) :
    0 ≤ c := by
  obtain ⟨l, hw, hc, -⟩ := h
  rw [← hc]
  exact wcost_nonneg hlen hw

theorem cpmInv_insert {C : Type} [DecidableEq C] {g : Roadmap C} {root : Node}
    {visited : List (Node × Option (Edge C) × Scal)} {w cur : WNode C}
    {ws rest : List (WNode C)}
    (hinv : CpmInv g root visited (w :: ws)) (hpop : popBest w ws = (cur, rest))
    (hv : vFind visited cur.node = none) :
    CpmInv g root (visited ++ [(cur.node, cur.par, cur.cost)]) (rest ++ pushKids g cur) := by
  have hperm : List.Perm (w :: ws) (cur :: rest) := by
    have h2 := popBest_perm w ws
    rw [hpop] at h2
    exact h2
  have hcurOK : EntryOK g root cur.node cur.par cur.cost :=
    hinv.qok _ (hperm.mem_iff.mpr (List.mem_cons_self _ _))
  have hrest : ∀ x ∈ rest, x ∈ w :: ws := fun x hx =>
    hperm.mem_iff.mpr (List.mem_cons_of_mem _ hx)
  refine ⟨?_, ?_, ?_, ?_, ?_⟩
  · intro x hx
    rcases List.mem_append.mp hx with hx | hx
    · exact hinv.qok _ (hrest x hx)
    · obtain ⟨e, he, hsrc, rfl⟩ := pushKids_mem hx
      exact entryOK_kid hcurOK he hsrc
  · intro t ht
    rcases List.mem_append.mp ht with ht | ht
    · exact hinv.vok _ ht
    · rw [List.mem_singleton.mp ht]
      exact hcurOK
  · rw [List.map_append]
    refine List.Nodup.append hinv.keys (by simp) ?_
    intro a ha hb
    simp only [List.map_cons, List.map_nil, List.mem_singleton] at hb
    rw [hb] at ha
    exact (vFind_eq_none_iff _ _).mp hv ha
  · rcases hinv.rootv with ⟨hve, hqe⟩ | hroot
    · right
      have hw2 : w = ⟨root, none, 0⟩ ∧ ws = [] := by
        have h1 := List.cons.inj hqe
        exact ⟨h1.1, h1.2⟩
      obtain ⟨rfl, rfl⟩ := hw2
      simp only [popBest, Prod.mk.injEq] at hpop
      obtain ⟨rfl, rfl⟩ := hpop
      subst hve
      simp [vFind]
    · exact Or.inr (vFind_append_left _ hroot)
  · intro t ht e he hsrc
    rcases List.mem_append.mp ht with ht | ht
    · rcases hinv.relax t ht e he hsrc with ⟨pc, hpc, hle⟩ | ⟨x, hx, hxn, hxc⟩
      · exact Or.inl ⟨pc, vFind_append_left _ hpc, hle⟩
      · have hx2 : x ∈ cur :: rest := hperm.mem_iff.mp hx
        rcases List.mem_cons.mp hx2 with hcx | hxr
        · rw [hcx] at hxn hxc
          left
          refine ⟨(cur.par, cur.cost), ?_, hxc⟩
          rw [← hxn, vFind_append_right _ hv]
          simp [vFind]
        · exact Or.inr ⟨x, List.mem_append_left _ hxr, hxn, hxc⟩
    · rw [List.mem_singleton.mp ht] at hsrc ⊢
      right
      exact ⟨⟨e.dst, some e, cur.cost + e.path.plen⟩,
        List.mem_append_right _ (pushKids_mem_of he hsrc), rfl, le_refl _⟩

theorem cpmInv_overwrite {C : Type} [DecidableEq C] {g : Roadmap C} {root : Node}
    {visited : List (Node × Option (Edge C) × Scal)} {w cur : WNode C}
    {ws rest : List (WNode C)} {pc : Option (Edge C) × Scal}
    (hlen : ∀ e ∈ g.edges, 0 ≤ e.path.plen)
    (hinv : CpmInv g root visited (w :: ws)) (hpop : popBest w ws = (cur, rest))
    (hv : vFind visited cur.node = some pc) (hlt : cur.cost < pc.2) :
    CpmInv g root (vSet visited cur.node cur.par cur.cost) (rest ++ pushKids g cur) := by
  have hperm : List.Perm (w :: ws) (cur :: rest) := by
    have h2 := popBest_perm w ws
    rw [hpop] at h2
    exact h2
  have hcurOK : EntryOK g root cur.node cur.par cur.cost :=
    hinv.qok _ (hperm.mem_iff.mpr (List.mem_cons_self _ _))
  have hrest : ∀ x ∈ rest, x ∈ w :: ws := fun x hx =>
    hperm.mem_iff.mpr (List.mem_cons_of_mem _ hx)
  have hvne : vFind visited cur.node ≠ none := by rw [hv]; simp
  refine ⟨?_, ?_, ?_, ?_, ?_⟩
  · intro x hx
    rcases List.mem_append.mp hx with hx | hx
    · exact hinv.qok _ (hrest x hx)
    · obtain ⟨e, he, hsrc, rfl⟩ := pushKids_mem hx
      exact entryOK_kid hcurOK he hsrc
  · intro t ht
    rcases vSet_mem _ _ _ ht with hteq | htold
    · rw [hteq]
      exact hcurOK
    · exact hinv.vok _ htold
  · rw [vSet_keys _ _ _ _ hvne]
    exact hinv.keys
  · rcases hinv.rootv with ⟨hve, -⟩ | hroot
    · rw [hve] at hv
      simp [vFind] at hv
    · by_cases hr : cur.node = root
      · rw [hr, hroot] at hv
        have hpc0 : pc = (none, 0) := (Option.some_inj.mp hv).symm
        rw [hpc0] at hlt
        exact absurd hlt (not_lt.mpr (entryOK_nonneg hlen hcurOK))
      · right
        rw [vFind_vSet_ne _ _ _ _ _ (fun h => hr h.symm)]
        exact hroot
  · intro t ht e he hsrc
    rcases vSet_mem _ _ _ ht with hteq | htold
    · rw [hteq] at hsrc ⊢
      right
      exact ⟨⟨e.dst, some e, cur.cost + e.path.plen⟩,
        List.mem_append_right _ (pushKids_mem_of he hsrc), rfl, le_refl _⟩
    · rcases hinv.relax t htold e he hsrc with ⟨pc2, hpc2, hle⟩ | ⟨x, hx, hxn, hxc⟩
      · by_cases hd : e.dst = cur.node
        · left
          refine ⟨(cur.par, cur.cost), by rw [hd]; exact vFind_vSet_self _ _ hv, ?_⟩
        
          rw [hd] at hpc2
          rw [hv] at hpc2
          have : pc2 = pc := Option.some_inj.mp hpc2.symm
          rw [this] at hle
          exact le_trans (le_of_lt hlt) hle
        · left
          exact ⟨pc2, by rw [vFind_vSet_ne _ _ _ _ _ hd]; exact hpc2, hle⟩
      · have hx2 : x ∈ cur :: rest := hperm.mem_iff.mp hx
        rcases List.mem_cons.mp hx2 with hcx | hxr
        · rw [hcx] at hxn hxc
          left
          refine ⟨(cur.par, cur.cost), ?_, hxc⟩
          rw [← hxn]
          exact vFind_vSet_self _ _ hv
        · exact Or.inr ⟨x, List.mem_append_left _ hxr, hxn, hxc⟩

theorem cpmInv_skip {C : Type} [DecidableEq C] {g : Roadmap C} {root : Node}
    {visited : List (Node × Option (Edge C) × Scal)} {w cur : WNode C}
    {ws rest : List (WNode C)} {pc : Option (Edge C) × Scal}
    (hinv : CpmInv g root visited (w :: ws)) (hpop : popBest w ws = (cur, rest))
    (hv : vFind visited cur.node = some pc) (hge : ¬ cur.cost < pc.2) :
    CpmInv g root visited rest := by
  have hperm : List.Perm (w :: ws) (cur :: rest) := by
    have h2 := popBest_perm w ws
    rw [hpop] at h2
    exact h2
  have hrest : ∀ x ∈ rest, x ∈ w :: ws := fun x hx =>
    hperm.mem_iff.mpr (List.mem_cons_of_mem _ hx)
  refine ⟨fun x hx => hinv.qok _ (hrest x hx), hinv.vok, hinv.keys, ?_, ?_⟩
  · rcases hinv.rootv with ⟨hve, -⟩ | hroot
    · rw [hve] at hv
      simp [vFind] at hv
    · exact Or.inr hroot
  · intro t ht e he hsrc
    rcases hinv.relax t ht e he hsrc with ⟨pc2, hpc2, hle⟩ | ⟨x, hx, hxn, hxc⟩
    · exact Or.inl ⟨pc2, hpc2, hle⟩
    · have hx2 : x ∈ cur :: rest := hperm.mem_iff.mp hx
      rcases List.mem_cons.mp hx2 with hcx | hxr
      · rw [hcx] at hxn hxc
        left
        refine ⟨pc, by rw [← hxn]; exact hv, ?_⟩
        exact le_trans (not_lt.mp hge) hxc
      · exact Or.inr ⟨x, hxr, hxn, hxc⟩

theorem cpmLoop_inv {C : Type} [DecidableEq C] {g : Roadmap C} {root : Node}
    (hlen : ∀ e ∈ g.edges, 0 ≤ e.path.plen) :
    ∀ (fuel : Nat) (visited : List (Node × Option (Edge C) × Scal)) (queue : List (WNode C))
      (vis : List (Node × Option (Edge C) × Scal)),
      CpmInv g root visited queue → cpmLoop g fuel visited queue = some vis →
      CpmInv g root vis [] := by
  intro fuel
  induction fuel with
  | zero =>
    intro visited queue vis hinv h
    simp [cpmLoop] at h
  | succ fuel ih =>
    intro visited queue vis hinv h
    cases queue with
    | nil =>
      simp only [cpmLoop, Option.some_inj] at h
      rw [← h]
      exact hinv
    | cons w ws =>
      simp only [cpmLoop] at h
      rcases hpp : popBest w ws with ⟨cur, rest⟩
      rw [hpp] at h
      dsimp only at h
      cases hv : vFind visited cur.node with
      | none =>
        simp only [hv] at h
        exact ih _ _ _ (cpmInv_insert hinv hpp hv) h
      | some pc =>
        simp only [hv] at h
        by_cases hlt : cur.cost < pc.2
        · rw [if_pos hlt] at h
          exact ih _ _ _ (cpmInv_overwrite hlen hinv hpp hv hlt) h
        · rw [if_neg hlt] at h
          exact ih _ _ _ (cpmInv_skip hinv hpp hv hlt) h

theorem cpmFinal_root {C : Type} {g : Roadmap C} {root : Node}
    {vis : List (Node × Option (Edge C) × Scal)} (hfin : CpmInv g root vis []) :
    vFind vis root = some (none, 0) := by
  rcases hfin.rootv with ⟨-, hq⟩ | hr
  · exact absurd hq (by simp)
  · exact hr

theorem cpmFinal_bellman {C : Type} {g : Roadmap C} {root : Node}
    {vis : List (Node × Option (Edge C) × Scal)} (hfin : CpmInv g root vis []) :
    ∀ t ∈ vis, ∀ e ∈ g.edges, e.src = t.1 →
      ∃ pc, vFind vis e.dst = some pc ∧ pc.2 ≤ t.2.2 + e.path.plen := by
  intro t ht e he hsrc
  rcases hfin.relax t ht e he hsrc with hgood | ⟨x, hx, -⟩
  · exact hgood
  · exact absurd hx (by simp)

theorem cpmFinal_reach_vfind {C : Type} {g : Roadmap C} {root : Node}
    {vis : List (Node × Option (Edge C) × Scal)} (hfin : CpmInv g root vis [])
    {n : Node} {l : List (Edge C)} (hw : Walk g root n l) :
    ∃ pc, vFind vis n = some pc := by
  induction hw with
  | nil => exact ⟨(none, 0), cpmFinal_root hfin⟩
  | snoc e l he hw ih =>
    obtain ⟨pc, hpc⟩ := ih
    obtain ⟨pc2, hpc2, -⟩ :=
      cpmFinal_bellman hfin (e.src, pc) (vFind_some_mem hpc) e he rfl
    exact ⟨pc2, hpc2⟩

theorem cpmFinal_min {C : Type} {g : Roadmap C} {root : Node}
    {vis : List (Node × Option (Edge C) × Scal)} (hfin : CpmInv g root vis []) :
    ∀ {n : Node} {l : List (Edge C)}, Walk g root n l →
      ∀ pc, vFind vis n = some pc → pc.2 ≤ wcost l := by
  intro n l hw
  induction hw with
  | nil =>
    intro pc hpc
    rw [cpmFinal_root hfin] at hpc
    rw [← Option.some_inj.mp hpc]
    simp [wcost]
  | snoc e l he hw ih =>
    intro pc hpc
    obtain ⟨pcs, hpcs⟩ := cpmFinal_reach_vfind hfin hw
    obtain ⟨pc2, hpc2, hle⟩ :=
      cpmFinal_bellman hfin (e.src, pcs) (vFind_some_mem hpcs) e he rfl
    rw [hpc] at hpc2
    have hpceq : pc2 = pc := (Option.some_inj.mp hpc2).symm
    rw [hpceq] at hle
    calc pc.2 ≤ pcs.2 + e.path.plen := hle
      _ ≤ wcost l + e.path.plen := by linarith [ih pcs hpcs]
      _ = wcost (l ++ [e]) := by rw [wcost_append]; simp [wcost]

theorem computeParentMap_run {C : Type} [DecidableEq C] {g : Roadmap C} {root : Node}
    {fuel : Nat} {m : ParentMap C}
    (hlen : ∀ e ∈ g.edges, 0 ≤ e.path.plen)
    (hrun : computeParentMap g root fuel = some m) :
    ∃ vis, CpmInv g root vis [] ∧ m = vis.map fun t => (t.1, t.2.1) := by
  simp only [computeParentMap] at hrun
  cases hloop : cpmLoop g fuel [] [⟨root, none, 0⟩] with
  | none =>
    rw [hloop] at hrun
    exact absurd hrun (by simp)
  | some vis =>
    rw [hloop] at hrun
    have hm : m = vis.map fun t => (t.1, t.2.1) := by
      have h2 : some (vis.map fun t => (t.1, t.2.1)) = some m := hrun
      exact (Option.some_inj.mp h2).symm
    have hinit : CpmInv g root [] [⟨root, none, 0⟩] := by
      refine ⟨?_, ?_, ?_, Or.inl ⟨rfl, rfl⟩, ?_⟩
      · intro w hw
        rw [List.mem_singleton.mp hw]
        exact ⟨[], Walk.nil, rfl, rfl⟩
      · intro t ht
        simp at ht
      · simp
      · intro t ht
        simp at ht
    exact ⟨vis, cpmLoop_inv hlen fuel _ _ _ hinit hloop, hm⟩

theorem walk_end {C : Type} {g : Roadmap C} {root n : Node} {l : List (Edge C)}
    (h : Walk g root n l) : n = root ∨ ∃ e ∈ g.edges, e.dst = n := by
  cases h with
  | nil => exact Or.inl rfl
  | snoc e l he hw => exact Or.inr ⟨e, he, rfl⟩

/-- C1 (amended): for every roadmap with non-negative edge-path lengths, a
terminating run of `computeParentMap(root)` returns a parent map rooted at
`root` (the root maps to no parent) whose domain is exactly the set of
nodes reachable from `root` by following out-edges, and which maps each
such node to the incoming edge of a minimum-cost path from `root`
(expansion driven by a MAX-heap: `std::priority_queue` with the cost
`operator<` pops entries in descending — not ascending — accumulated
cost, see the pop-order counterexample, with a visited node overwritten
and its children re-enqueued when a strictly cheaper cost is found; the
returned tree is nevertheless the minimum-cost one). -/
theorem computeParentMap_min_cost_parent_map {C : Type} [DecidableEq C] (g : Roadmap C)
    (root : Node) (fuel : Nat) (m : ParentMap C)
    (hlen : ∀ e ∈ g.edges, 0 ≤ e.path.plen)
    (hrun : computeParentMap g root fuel = some m) :
    pmFind m root = some none ∧
    (∀ n, (pmFind m n).isSome ↔ Reach g root n) ∧
    (∀ n e, pmFind m n = some (some e) → e.dst = n ∧ e ∈ g.edges ∧
      ∃ l, Walk g root n l ∧ l.getLast? = some e ∧
        ∀ l2, Walk g root n l2 → wcost l ≤ wcost l2) := by
  obtain ⟨vis, hfin, hm⟩ := computeParentMap_run hlen hrun
  subst hm
  refine ⟨?_, ?_, ?_⟩
  · rw [pmFind_of_vmap, cpmFinal_root hfin]
    rfl
  · intro n
    rw [pmFind_of_vmap]
    constructor
    · intro hs
      cases hvn : vFind vis n with
      | none =>
        rw [hvn] at hs
        simp at hs
      | some pc =>
        obtain ⟨l, hw, -, -⟩ := hfin.vok _ (vFind_some_mem hvn)
        exact ⟨l, hw⟩
    · intro hr
      obtain ⟨l, hw⟩ := hr
      obtain ⟨pc, hpc⟩ := cpmFinal_reach_vfind hfin hw
      rw [hpc]
      simp
  · intro n e hne
    rw [pmFind_of_vmap] at hne
    cases hvn : vFind vis n with
    | none =>
      rw [hvn] at hne
      simp at hne
    | some pc =>
      rw [hvn] at hne
      have hpar : pc.1 = some e := by simpa using hne
      obtain ⟨l, hw, hc, hlast⟩ := hfin.vok _ (vFind_some_mem hvn)
      rw [hpar] at hlast
      obtain ⟨hdst, hmem⟩ := walk_last_dst hw hlast
      refine ⟨hdst, hmem, l, hw, hlast, ?_⟩
      intro l2 hw2
      have hmin := cpmFinal_min hfin hw2 pc hvn
      rw [hc]
      exact hmin

theorem computeParentMap_length {C : Type} [DecidableEq C] {g : Roadmap C} {root : Node}
    {fuel : Nat} {m : ParentMap C}
    (hlen : ∀ e ∈ g.edges, 0 ≤ e.path.plen)
    (hrun : computeParentMap g root fuel = some m)
    (hids : (g.nodes.map fun r => r.id).Nodup)
    (hedge : ∀ e ∈ g.edges, e.dst ∈ g.nodes.map fun r => r.id)
    (hroot : root ∈ g.nodes.map fun r => r.id)
    (hreach : ∀ r ∈ g.nodes, Reach g root r.id) :
    m.length = g.nodes.length := by
  obtain ⟨vis, hfin, hm⟩ := computeParentMap_run hlen hrun
  subst hm
  rw [List.length_map]
  have hsub1 : ∀ n ∈ vis.map (fun t => t.1), n ∈ g.nodes.map fun r => r.id := by
    intro n hn
    obtain ⟨t, ht, rfl⟩ := List.mem_map.mp hn
    obtain ⟨l, hw, -, -⟩ := hfin.vok _ ht
    rcases walk_end hw with hr | ⟨e, he, hd⟩
    · rw [hr]
      exact hroot
    · rw [← hd]
      exact hedge e he
  have hsub2 : ∀ n ∈ g.nodes.map (fun r => r.id), n ∈ vis.map fun t => t.1 := by
    intro n hn
    obtain ⟨r, hr, rfl⟩ := List.mem_map.mp hn
    obtain ⟨l, hw⟩ := hreach r hr
    obtain ⟨pc, hpc⟩ := cpmFinal_reach_vfind hfin hw
    exact List.mem_map.mpr ⟨(r.id, pc), vFind_some_mem hpc, rfl⟩
  have hfs : (vis.map fun t => t.1).toFinset = (g.nodes.map fun r => r.id).toFinset := by
    apply Finset.ext
    intro a
    simp only [List.mem_toFinset]
    exact ⟨fun h => hsub1 a h, fun h => hsub2 a h⟩
  have h1 := List.toFinset_card_of_nodup hfin.keys
  have h2 := List.toFinset_card_of_nodup hids
  rw [hfs] at h1
  rw [h2] at h1
  have h3 : (List.map (fun t => t.1) vis).length = vis.length := List.length_map _ _
  have h4 : (List.map (fun r => r.id) g.nodes).length = g.nodes.length := List.length_map _ _
  omega

/-- C7: in the refinement branch of `one_step`, when `roots[0]` is absent
from `toRoot[1]`, `refineMaps` rebuilds BOTH maps from scratch via
`computeParentMap`, and immediately afterwards both maps cover exactly the
node set of the roadmap: `|toRoot[0]| = |toRoot[1]| = |roadmap.nodes|`
(under the planner's standing invariants: distinct node handles, edge
targets and the two roots being roadmap nodes, non-negative path lengths,
and every node reachable from each root — which the planner maintains by
always inserting an edge together with its reverse). -/
theorem refine_maps_cover_roadmap {C : Type} [DecidableEq C] (g : Roadmap C)
    (root0 root1 : Node) (m0 m1 ma mb : ParentMap C) (fuel : Nat)
    (hdetect : (pmFind m1 root0).isNone = true)
    (hma : computeParentMap g root0 fuel = some ma)
    (hmb : computeParentMap g root1 fuel = some mb)
    (hlen : ∀ e ∈ g.edges, 0 ≤ e.path.plen)
    (hids : (g.nodes.map fun r => r.id).Nodup)
    (hedge : ∀ e ∈ g.edges, e.dst ∈ g.nodes.map fun r => r.id)
    (hr0 : root0 ∈ g.nodes.map fun r => r.id) (hr1 : root1 ∈ g.nodes.map fun r => r.id)
    (hreach0 : ∀ r ∈ g.nodes, Reach g root0 r.id)
    (hreach1 : ∀ r ∈ g.nodes, Reach g root1 r.id) :
    refineMaps g root0 root1 m0 m1 fuel = .ok (ma, mb) ∧
    ma.length = g.nodes.length ∧ mb.length = g.nodes.length := by
  refine ⟨?_, computeParentMap_length hlen hma hids hedge hr0 hreach0,
    computeParentMap_length hlen hmb hids hedge hr1 hreach1⟩
  simp only [refineMaps, hdetect, if_true, hma, hmb]

/-- Witness for C1 at a concrete input: the run on `gPop` from root 0 with
fuel 10 terminates on `mPop` and satisfies the amended claim. -/
theorem computeParentMap_min_cost_parent_map_wit :
    pmFind mPop 0 = some none ∧
    (∀ n, (pmFind mPop n).isSome ↔ Reach gPop 0 n) ∧
    (∀ n e, pmFind mPop n = some (some e) → e.dst = n ∧ e ∈ gPop.edges ∧
      ∃ l, Walk gPop 0 n l ∧ l.getLast? = some e ∧
        ∀ l2, Walk gPop 0 n l2 → wcost l ≤ wcost l2) := by
  refine computeParentMap_min_cost_parent_map gPop 0 10 mPop ?_ ?_
  · intro e he
    simp only [gPop, List.mem_cons, List.not_mem_nil, or_false] at he
    rcases he with rfl | rfl <;> norm_num
  · norm_num [computeParentMap, cpmLoop, popBest, vFind, vSet, pushKids, Roadmap.outEdges,
      gPop, mPop, List.filter]

/-- Witness for C7 at a concrete input: on `gCov`, with `toRoot[1]` still
missing root 0, `refineMaps` rebuilds both maps and they cover the whole
two-node roadmap. -/
theorem refine_maps_cover_roadmap_wit :
    refineMaps gCov 0 1 [(0, none)] [(1, none)] 10 = .ok (maCov, mbCov) ∧
    maCov.length = gCov.nodes.length ∧ mbCov.length = gCov.nodes.length := by
  refine refine_maps_cover_roadmap gCov 0 1 [(0, none)] [(1, none)] maCov mbCov 10
    ?_ ?_ ?_ ?_ ?_ ?_ ?_ ?_ ?_ ?_
  · norm_num [pmFind]
  · norm_num [computeParentMap, cpmLoop, popBest, vFind, vSet, pushKids, Roadmap.outEdges,
      gCov, maCov, List.filter]
  · norm_num [computeParentMap, cpmLoop, popBest, vFind, vSet, pushKids, Roadmap.outEdges,
      gCov, mbCov, List.filter]
  · intro e he
    simp only [gCov, List.mem_cons, List.not_mem_nil, or_false] at he
    rcases he with rfl | rfl <;> norm_num
  · norm_num [gCov]
  · intro e he
    simp only [gCov, List.mem_cons, List.not_mem_nil, or_false] at he
    rcases he with rfl | rfl <;> norm_num [gCov]
  · norm_num [gCov]
  · norm_num [gCov]
  · intro r hr
    simp only [gCov, List.mem_cons, List.not_mem_nil, or_false] at hr
    rcases hr with rfl | rfl
    · exact ⟨[], Walk.nil⟩
    · exact ⟨[⟨0, 1, ⟨0, 5, 5⟩⟩], Walk.snoc ⟨0, 1, ⟨0, 5, 5⟩⟩ [] (by simp [gCov]) Walk.nil⟩
  · intro r hr
    simp only [gCov, List.mem_cons, List.not_mem_nil, or_false] at hr
    rcases hr with rfl | rfl
    · exact ⟨[⟨1, 0, ⟨5, 0, 5⟩⟩], Walk.snoc ⟨1, 0, ⟨5, 0, 5⟩⟩ [] (by simp [gCov]) Walk.nil⟩
    · exact ⟨[], Walk.nil⟩

theorem pchain_nil_inv {C : Type} {m : ParentMap C} {n : Node}
    (h : PChain m n []) : pmFind m n = some none := by
  cases h with
  | nil _ hh => exact hh

theorem pchain_cons_inv {C : Type} {m : ParentMap C} {n : Node} {e : Edge C}
    {l : List (Edge C)} (h : PChain m n (e :: l)) :
    pmFind m n = some (some e) ∧ PChain m e.src l := by
  cases h with
  | cons _ _ _ hh ht => exact ⟨hh, ht⟩

theorem pchain_unique {C : Type} {m : ParentMap C} {n : Node} {l1 l2 : List (Edge C)}
    (h1 : PChain m n l1) (h2 : PChain m n l2) : l1 = l2 := by
  induction h1 generalizing l2 with
  | nil n h =>
    cases l2 with
    | nil => rfl
    | cons e2 l2 =>
      obtain ⟨hh, -⟩ := pchain_cons_inv h2
      rw [h] at hh
      simp at hh
  | cons n e l h ht ih =>
    cases l2 with
    | nil =>
      have hh := pchain_nil_inv h2
      rw [h] at hh
      simp at hh
    | cons e2 l2 =>
      obtain ⟨hh, ht2⟩ := pchain_cons_inv h2
      rw [h] at hh
      have he : e = e2 := by simpa using hh
      subst he
      rw [ih ht2]

theorem pchain_spine_isSome {C : Type} {m : ParentMap C} {n : Node} {l : List (Edge C)}
    (h : PChain m n l) : ∀ y ∈ spine n l, (pmFind m y).isSome := by
  induction h with
  | nil n h =>
    intro y hy
    simp only [spine, List.map_nil, List.mem_singleton] at hy
    rw [hy, h]
    rfl
  | cons n e l h ht ih =>
    intro y hy
    simp only [spine, List.map_cons, List.mem_cons] at hy
    rcases hy with rfl | hy
    · rw [h]
      rfl
    · exact ih y (by simpa [spine] using hy)

theorem pchain_spine_suffix {C : Type} {m : ParentMap C} {n : Node} {l : List (Edge C)}
    (h : PChain m n l) : ∀ x ∈ spine n l, ∃ l2, l2 <:+ l ∧ PChain m x l2 := by
  induction h with
  | nil n h =>
    intro x hx
    simp only [spine, List.map_nil, List.mem_singleton] at hx
    exact ⟨[], List.suffix_refl _, hx ▸ PChain.nil n h⟩
  | cons n e l h ht ih =>
    intro x hx
    simp only [spine, List.map_cons, List.mem_cons] at hx
    rcases hx with rfl | hx
    · exact ⟨e :: l, List.suffix_refl _, PChain.cons x e l h ht⟩
    · obtain ⟨l2, hsuf, hch⟩ := ih x (by simpa [spine] using hx)
      exact ⟨l2, hsuf.trans (List.suffix_cons e l), hch⟩

theorem pmFind_isSome_mem {C : Type} {m : ParentMap C} {n : Node}
    (h : (pmFind m n).isSome) : n ∈ m.map fun t => t.1 := by
  induction m with
  | nil => simp [pmFind] at h
  | cons t m ih =>
    obtain ⟨k, e⟩ := t
    by_cases hk : k = n
    · simp [hk]
    · simp only [pmFind, if_neg hk] at h
      exact List.mem_cons_of_mem _ (ih h)

theorem pchain_spine_nodup {C : Type} {m : ParentMap C} {n : Node} {l : List (Edge C)}
    (h : PChain m n l) : (spine n l).Nodup := by
  induction h with
  | nil n h => simp [spine]
  | cons n e l h ht ih =>
    have hsp : spine n (e :: l) = n :: spine e.src l := by simp [spine]
    rw [hsp]
    refine List.Nodup.cons ?_ ih
    intro hmem
    obtain ⟨l2, hsuf, hch⟩ := pchain_spine_suffix ht n hmem
    have heq : l2 = e :: l := pchain_unique hch (PChain.cons n e l h ht)
    have hlen : l2.length ≤ l.length := List.IsSuffix.length_le hsuf
    rw [heq] at hlen
    simp at hlen

theorem pchain_length_lt {C : Type} {m : ParentMap C} {n : Node} {l : List (Edge C)}
    (h : PChain m n l) : l.length < m.length := by
  have hsub : ∀ y ∈ spine n l, y ∈ m.map fun t => t.1 := fun y hy =>
    pmFind_isSome_mem (pchain_spine_isSome h y hy)
  have hnd := pchain_spine_nodup h
  have hcard : (spine n l).length ≤ (m.map fun t => t.1).length := by
    have h1 : (spine n l).length = (spine n l).toFinset.card :=
      (List.toFinset_card_of_nodup hnd).symm
    have h2 : (spine n l).toFinset ⊆ (m.map fun t => t.1).toFinset := by
      intro a ha
      rw [List.mem_toFinset] at ha ⊢
      exact hsub a ha
    have h3 := Finset.card_le_card h2
    have h4 : (m.map fun t => t.1).toFinset.card ≤ (m.map fun t => t.1).length :=
      List.toFinset_card_le _
    omega
  have hlen : (spine n l).length = l.length + 1 := by simp [spine]
  rw [List.length_map] at hcard
  omega

theorem computeCostFuel_sound {C : Type} {m : ParentMap C} :
    ∀ {f : Nat} {n : Node} {acc c : Scal}, computeCostFuel m f n acc = .ok c →
      ∃ l, PChain m n l ∧ c = acc + wcost l := by
  intro f
  induction f with
  | zero =>
    intro n acc c h
    simp [computeCostFuel] at h
  | succ f ih =>
    intro n acc c h
    simp only [computeCostFuel] at h
    cases hf : pmFind m n with
    | none =>
      rw [hf] at h
      simp at h
    | some oe =>
      rw [hf] at h
      cases oe with
      | none =>
        simp only [Except.ok.injEq] at h
        exact ⟨[], PChain.nil n hf, by simp [← h, wcost]⟩
      | some e =>
        obtain ⟨l, hch, hc⟩ := ih h
        refine ⟨e :: l, PChain.cons n e l hf hch, ?_⟩
        rw [hc]
        simp [wcost]
        ring

theorem computeCostFuel_complete {C : Type} {m : ParentMap C} {n : Node} {l : List (Edge C)}
    (h : PChain m n l) : ∀ (acc : Scal) (f : Nat), l.length < f →
      computeCostFuel m f n acc = .ok (acc + wcost l) := by
  induction h with
  | nil n h =>
    intro acc f hf
    cases f with
    | zero => simp at hf
    | succ f =>
      simp only [computeCostFuel, h]
      simp [wcost]
  | cons n e l h ht ih =>
    intro acc f hf
    cases f with
    | zero => simp at hf
    | succ f =>
      simp only [computeCostFuel, h]
      rw [ih (acc + e.path.plen) f (by simp at hf; omega)]
      simp only [Except.ok.injEq, wcost, List.map_cons, List.sum_cons]
      ring

theorem computeCost_ok_iff {C : Type} {m : ParentMap C} {n : Node} {c : Scal} :
    computeCost m n = .ok c ↔ ∃ l, PChain m n l ∧ c = wcost l := by
  constructor
  · intro h
    obtain ⟨l, hch, hc⟩ := computeCostFuel_sound h
    exact ⟨l, hch, by rw [hc]; ring⟩
  · intro hex
    obtain ⟨l, hch, hc⟩ := hex
    have hc2 := computeCostFuel_complete hch 0 (m.length + 1)
      (by have := pchain_length_lt hch; omega)
    rw [hc]
    simpa [computeCost] using hc2

theorem pchain_edge_entry {C : Type} {m : ParentMap C} {n : Node} {l : List (Edge C)}
    (h : PChain m n l) : ∀ e ∈ l, ∃ x, pmFind m x = some (some e) := by
  induction h with
  | nil n h => simp
  | cons n e l h ht ih =>
    intro x hx
    rcases List.mem_cons.mp hx with rfl | hx
    · exact ⟨n, h⟩
    · exact ih x hx

theorem pchain_cost_nonneg {C : Type} {m : ParentMap C} {n : Node} {l : List (Edge C)}
    (hwf : PMWf m) (h : PChain m n l) : 0 ≤ wcost l := by
  have hmem := pchain_edge_entry h
  have hall : ∀ x ∈ l.map (fun e => e.path.plen), 0 ≤ x := by
    intro x hx
    obtain ⟨e, he, rfl⟩ := List.mem_map.mp hx
    obtain ⟨y, hy⟩ := hmem e he
    exact hwf.nonneg y e hy
  exact List.sum_nonneg hall

theorem pmFind_pmSet_self {C : Type} (m : ParentMap C) (x : Node) (v : Option (Edge C)) :
    pmFind (pmSet m x v) x = some v := by
  induction m with
  | nil => simp [pmFind, pmSet]
  | cons t rest ih =>
    obtain ⟨k, e0⟩ := t
    by_cases hk : k = x
    · simp [pmSet, pmFind, hk]
    · simp only [pmSet, if_neg hk, pmFind]
      exact ih

theorem pmFind_pmSet_ne {C : Type} (m : ParentMap C) (x n : Node) (v : Option (Edge C))
    (h : n ≠ x) : pmFind (pmSet m x v) n = pmFind m n := by
  induction m with
  | nil => simp only [pmSet, pmFind, if_neg (Ne.symm h)]
  | cons t rest ih =>
    obtain ⟨k, e0⟩ := t
    by_cases hk : k = x
    · subst hk
      simp only [pmSet, if_pos rfl, pmFind]
      rw [if_neg (fun hh => h hh.symm), if_neg (fun hh => h hh.symm)]
    · simp only [pmSet, if_neg hk, pmFind]
      by_cases hkn : k = n
      · rw [if_pos hkn, if_pos hkn]
      · rw [if_neg hkn, if_neg hkn]
        exact ih

theorem pchain_stable_set {C : Type} {m : ParentMap C} {x : Node} {v : Option (Edge C)}
    {n : Node} {l : List (Edge C)} (h : PChain m n l) (hx : x ∉ spine n l) :
    PChain (pmSet m x v) n l := by
  induction h with
  | nil n h =>
    have hne : n ≠ x := by
      intro hh
      exact hx (by simp [spine, hh])
    exact PChain.nil n (by rw [pmFind_pmSet_ne _ _ _ _ hne]; exact h)
  | cons n e l h ht ih =>
    have hne : n ≠ x := by
      intro hh
      exact hx (by simp [spine, hh])
    have hx2 : x ∉ spine e.src l := by
      intro hh
      apply hx
      simp only [spine, List.map_cons, List.mem_cons] at hh ⊢
      tauto
    exact PChain.cons n e l (by rw [pmFind_pmSet_ne _ _ _ _ hne]; exact h) (ih hx2)

theorem pchain_stable_fresh {C : Type} {m : ParentMap C} {x : Node} {v : Option (Edge C)}
    {n : Node} {l : List (Edge C)} (hx : pmFind m x = none) (h : PChain m n l) :
    PChain (pmSet m x v) n l := by
  refine pchain_stable_set h ?_
  intro hm
  have := pchain_spine_isSome h x hm
  rw [hx] at this
  exact Bool.noConfusion this

theorem pchain_suffix_cost_le {C : Type} {m : ParentMap C} {n : Node}
    {lp l2 : List (Edge C)} (hwf : PMWf m) (hp : PChain m n lp) (hs : l2 <:+ lp) :
    wcost l2 ≤ wcost lp := by
  obtain ⟨pre, rfl⟩ := hs
  rw [wcost_append]
  have hnn : 0 ≤ wcost pre := by
    refine List.sum_nonneg ?_
    intro a ha
    obtain ⟨e, he, rfl⟩ := List.mem_map.mp ha
    obtain ⟨y, hy⟩ := pchain_edge_entry hp e (List.mem_append_left _ he)
    exact hwf.nonneg y e hy
  linarith

/-- The heart of cost monotonicity: re-pointing a node's parent entry to a
strictly cheaper alternative keeps the map well-formed and never increases
any node's chain cost. -/
theorem repoint_mono {C : Type} {m : ParentMap C} {enew : Edge C}
    {lp lx : List (Edge C)} (hwf : PMWf m) (hnn : 0 ≤ enew.path.plen)
    (hpx : PChain m enew.src lp) (hxl : PChain m enew.dst lx)
    (hlt : wcost lp + enew.path.plen < wcost lx) :
    PMWf (pmSet m enew.dst (some enew)) ∧
    PChain (pmSet m enew.dst (some enew)) enew.dst (enew :: lp) ∧
    wcost (enew :: lp) < wcost lx ∧
    (∀ n l, PChain m n l →
      ∃ l2, PChain (pmSet m enew.dst (some enew)) n l2 ∧ wcost l2 ≤ wcost l) := by
  have hxs : enew.dst ∉ spine enew.src lp := by
    intro hmem
    obtain ⟨l2, hsuf, hch⟩ := pchain_spine_suffix hpx enew.dst hmem
    have heq : l2 = lx := pchain_unique hch hxl
    have hle : wcost l2 ≤ wcost lp := pchain_suffix_cost_le hwf hpx hsuf
    rw [heq] at hle
    linarith
  have hpp : PChain (pmSet m enew.dst (some enew)) enew.src lp :=
    pchain_stable_set hpx hxs
  have hxc : PChain (pmSet m enew.dst (some enew)) enew.dst (enew :: lp) :=
    PChain.cons _ enew lp (pmFind_pmSet_self m enew.dst (some enew)) hpp
  have hwc : wcost (enew :: lp) < wcost lx := by
    have hcons : wcost (enew :: lp) = enew.path.plen + wcost lp := by simp [wcost]
    rw [hcons]
    linarith
  have hmono : ∀ n l, PChain m n l →
      ∃ l2, PChain (pmSet m enew.dst (some enew)) n l2 ∧ wcost l2 ≤ wcost l := by
    intro n l h
    induction h with
    | nil n h =>
      by_cases hn : n = enew.dst
      · have hxl2 : PChain m n lx := by rw [hn]; exact hxl
        have hlx : lx = [] := pchain_unique hxl2 (PChain.nil n h)
        refine ⟨enew :: lp, ?_, ?_⟩
        · rw [hn]; exact hxc
        · rw [hlx] at hwc
          exact le_of_lt hwc
      · exact ⟨[], PChain.nil n (by rw [pmFind_pmSet_ne _ _ _ _ hn]; exact h), le_refl _⟩
    | cons n e l h ht ih =>
      by_cases hn : n = enew.dst
      · have hxl2 : PChain m n lx := by rw [hn]; exact hxl
        have hlx : lx = e :: l := pchain_unique hxl2 (PChain.cons n e l h ht)
        refine ⟨enew :: lp, ?_, ?_⟩
        · rw [hn]; exact hxc
        · rw [hlx] at hwc
          exact le_of_lt hwc
      · obtain ⟨l2, hch2, hle2⟩ := ih
        refine ⟨e :: l2, PChain.cons n e l2
          (by rw [pmFind_pmSet_ne _ _ _ _ hn]; exact h) hch2, ?_⟩
        have hc2 : wcost (e :: l2) = e.path.plen + wcost l2 := by simp [wcost]
        have hc3 : wcost (e :: l) = e.path.plen + wcost l := by simp [wcost]
        rw [hc2, hc3]
        linarith
  refine ⟨⟨?_, ?_⟩, hxc, hwc, hmono⟩
  · intro n hs
    by_cases hn : n = enew.dst
    · exact ⟨enew :: lp, hn ▸ hxc⟩
    · rw [pmFind_pmSet_ne _ _ _ _ hn] at hs
      obtain ⟨l, hl⟩ := hwf.total n hs
      obtain ⟨l2, hl2, -⟩ := hmono n l hl
      exact ⟨l2, hl2⟩
  · intro n e hne
    by_cases hn : n = enew.dst
    · subst hn
      rw [pmFind_pmSet_self] at hne
      have : e = enew := by simpa using hne.symm
      rw [this]
      exact hnn
    · rw [pmFind_pmSet_ne _ _ _ _ hn] at hne
      exact hwf.nonneg n e hne

/-- Inserting a parent entry for a FRESH node (one the map does not hold)
keeps the map well-formed, preserves every existing chain exactly, and gives
the fresh node the chain through its new parent edge. -/
theorem insert_fresh_mono {C : Type} {m : ParentMap C} {x : Node} {enew : Edge C}
    {lp : List (Edge C)} (hwf : PMWf m) (hx : pmFind m x = none)
    (hnn : 0 ≤ enew.path.plen) (hsrc : PChain m enew.src lp) :
    PMWf (pmSet m x (some enew)) ∧
    (∀ n l, PChain m n l → PChain (pmSet m x (some enew)) n l) ∧
    PChain (pmSet m x (some enew)) x (enew :: lp) := by
  have hpres : ∀ n l, PChain m n l → PChain (pmSet m x (some enew)) n l :=
    fun n l h => pchain_stable_fresh hx h
  have hxc : PChain (pmSet m x (some enew)) x (enew :: lp) :=
    PChain.cons x enew lp (pmFind_pmSet_self m x (some enew)) (hpres _ _ hsrc)
  refine ⟨⟨?_, ?_⟩, hpres, hxc⟩
  · intro n hs
    by_cases hn : n = x
    · exact ⟨enew :: lp, hn ▸ hxc⟩
    · rw [pmFind_pmSet_ne _ _ _ _ hn] at hs
      obtain ⟨l, hl⟩ := hwf.total n hs
      exact ⟨l, hpres n l hl⟩
  · intro n e hne
    by_cases hn : n = x
    · subst hn
      rw [pmFind_pmSet_self] at hne
      have : e = enew := by simpa using hne.symm
      rw [this]
      exact hnn
    · rw [pmFind_pmSet_ne _ _ _ _ hn] at hne
      exact hwf.nonneg n e hne

theorem addEdge_snd {C : Type} [DecidableEq C] (g : Roadmap C) (a b : Node) (p : Path C) :
    (g.addEdge a b p).2 = ⟨a, b, p⟩ := rfl

theorem setParent_ok_eq {C : Type} {m : ParentMap C} {n : Node} {e : Edge C}
    {m2 : ParentMap C} (h : setParent m n (some e) = .ok m2) :
    e.dst = n ∧ m2 = pmSet m n (some e) := by
  simp only [setParent] at h
  split at h
  · exact Except.noConfusion h
  · split at h
    · exact Except.noConfusion h
    · rename_i h1 h2
      simp only [Except.ok.injEq] at h
      exact ⟨not_not.mp h1, h.symm⟩

theorem chooseInv_push {C : Type} {m : ParentMap C} {st : Choice C}
    (hinv : ChooseInv m st) (b : Bool) (op : Option (Path C))
    (hop : ∀ p2, op = some p2 → 0 ≤ p2.plen) :
    ChooseInv m { st with recs := st.recs ++ [(b, op)] } := by
  refine ⟨hinv.chain, hinv.pnn, ?_⟩
  intro r hr p2 hp2
  rcases List.mem_append.mp hr with hr | hr
  · exact hinv.recs r hr p2 hp2
  · simp only [List.mem_singleton] at hr
    rw [hr] at hp2
    exact hop p2 hp2

theorem choosePass_inv {C : Type} [DecidableEq C] (pb : Pb C) (g : Roadmap C)
    (m : ParentMap C) (q : C)
    (hbp : ∀ a b L v p2, buildPath pb a b L v = some p2 → 0 ≤ p2.plen) :
    ∀ (l : List Node) (st st2 : Choice C), ChooseInv m st →
      choosePass pb g m q l st = .ok st2 → ChooseInv m st2 := by
  intro l
  induction l with
  | nil =>
    intro st st2 hinv h
    simp only [choosePass, Except.ok.injEq] at h
    rw [← h]
    exact hinv
  | cons cand rest ih =>
    intro st st2 hinv h
    simp only [choosePass] at h
    by_cases h1 : cand = st.near
    · rw [if_pos h1] at h
      exact ih _ _ (chooseInv_push hinv true (some st.path)
        (fun p2 hp2 => by rw [← Option.some_inj.mp hp2]; exact hinv.pnn)) h
    · rw [if_neg h1] at h
      cases hc : g.cfgOf cand with
      | none =>
        simp only [hc] at h
        exact Except.noConfusion h
      | some cfgc =>
        simp only [hc] at h
        cases hb : buildPath pb cfgc q (-1) false with
        | none =>
          simp only [hb] at h
          exact ih _ _ (chooseInv_push hinv false none
            (fun p2 hp2 => Option.noConfusion hp2)) h
        | some n2n =>
          simp only [hb] at h
          rw [exceptBind_ok_iff] at h
          obtain ⟨cc, hcc, h⟩ := h
          have hn2n : 0 ≤ n2n.plen := hbp _ _ _ _ _ hb
          by_cases h2 : cc + n2n.plen < st.costq
          · rw [if_pos h2] at h
            by_cases h3 : pathOk pb n2n = true
            · rw [if_pos h3] at h
              refine ih _ _ ?_ h
              obtain ⟨lc, hlc, hcw⟩ := computeCost_ok_iff.mp hcc
              refine ⟨⟨lc, hlc, by rw [hcw]⟩, hn2n, ?_⟩
              intro r hr p2 hp2
              rcases List.mem_append.mp hr with hr | hr
              · exact hinv.recs r hr p2 hp2
              · simp only [List.mem_singleton] at hr
                rw [hr] at hp2
                simp only [Option.some_inj] at hp2
                rw [← hp2]
                exact hn2n
            · rw [if_neg h3] at h
              exact ih _ _ (chooseInv_push hinv true none
                (fun p2 hp2 => Option.noConfusion hp2)) h
          · rw [if_neg h2] at h
            exact ih _ _ (chooseInv_push hinv false (some n2n)
              (fun p2 hp2 => by rw [← Option.some_inj.mp hp2]; exact hn2n)) h

/-- Cost monotonicity of the rewiring loop: with a well-formed map, a chain
for `qnew` of cost at most `costq`, and non-negative recorded path lengths,
every re-pointing keeps the map well-formed, never increases any node's
chain cost, and never touches a root entry (a `none` parent entry). -/
theorem rewirePass_mono {C : Type} [DecidableEq C] (pb : Pb C) (qnew near : Node)
    (costq : Scal) (checkQnew : Bool) :
    ∀ (lst : List (Node × (Bool × Option (Path C)))) (g : Roadmap C) (m : ParentMap C)
      (g2 : Roadmap C) (m2 : ParentMap C) (lq : List (Edge C)),
      PMWf m →
      (∀ pr ∈ lst, ∀ p2, pr.2.2 = some p2 → 0 ≤ p2.plen) →
      PChain m qnew lq → wcost lq ≤ costq →
      rewirePass pb qnew near costq checkQnew lst g m = .ok (g2, m2) →
      PMWf m2 ∧
      (∀ n l, PChain m n l → ∃ l2, PChain m2 n l2 ∧ wcost l2 ≤ wcost l) ∧
      (∀ r, pmFind m r = some none → pmFind m2 r = some none) := by
  intro lst
  induction lst with
  | nil =>
    intro g m g2 m2 lq hwf hrec hq hle h
    simp only [rewirePass, Except.ok.injEq, Prod.mk.injEq] at h
    rw [← h.2]
    exact ⟨hwf, fun n l hl => ⟨l, hl, le_refl _⟩, fun r hr => hr⟩
  | cons pr0 rest ih =>
    intro g m g2 m2 lq hwf hrec hq hle h
    obtain ⟨nd, re⟩ := pr0
    have hrecr : ∀ pr ∈ rest, ∀ p2, pr.2.2 = some p2 → 0 ≤ p2.plen :=
      fun pr hpr => hrec pr (List.mem_cons_of_mem _ hpr)
    simp only [rewirePass] at h
    by_cases h1 : nd = near
    · rw [if_pos h1] at h
      exact ih g m g2 m2 lq hwf hrecr hq hle h
    · rw [if_neg h1] at h
      cases hre : re.2 with
      | none =>
        simp only [hre] at h
        exact ih g m g2 m2 lq hwf hrecr hq hle h
      | some pth =>
        simp only [hre] at h
        rw [exceptBind_ok_iff] at h
        obtain ⟨ci, hci, h⟩ := h
        have hpnn : 0 ≤ pth.plen := hrec (nd, re) (List.mem_cons_self _ _) pth hre
        have hq0 : 0 ≤ wcost lq := pchain_cost_nonneg hwf hq
        obtain ⟨lx, hlx, hciw⟩ := computeCost_ok_iff.mp hci
        by_cases h2 : costq + pth.plen < ci
        · rw [if_pos h2] at h
          by_cases h3 : (re.1 || pathOk pb pth) = true
          · rw [if_pos h3] at h
            have hqs : (pmFind m qnew).isSome :=
              pchain_spine_isSome hq qnew (by simp [spine])
            have hni : ¬(checkQnew = true ∧ (pmFind m qnew).isNone = true) := by
              intro hcc
              rw [Option.isNone_iff_eq_none] at hcc
              rw [hcc.2] at hqs
              exact Bool.noConfusion hqs
            rw [if_neg hni] at h
            rw [exceptBind_ok_iff] at h
            obtain ⟨m1, hm1, h⟩ := h
            simp only [addEdge_snd] at hm1
            obtain ⟨-, hm1eq⟩ := setParent_ok_eq hm1
            subst hm1eq
            have hrp := @repoint_mono C m ⟨qnew, nd, pth.reverse⟩ lq lx hwf hpnn hq hlx
              (by rw [hciw] at h2; show wcost lq + pth.plen < wcost lx; linarith)
            obtain ⟨hwf1, hxc1, hwc1, hmono1⟩ := hrp
            obtain ⟨lq1, hq1, hlq1⟩ := hmono1 qnew lq hq
            obtain ⟨hwfF, hmonoF, hrootF⟩ :=
              ih _ _ g2 m2 lq1 hwf1 hrecr hq1 (le_trans hlq1 hle) h
            refine ⟨hwfF, ?_, ?_⟩
            · intro n l hl
              obtain ⟨l1, hl1, hle1⟩ := hmono1 n l hl
              obtain ⟨l2, hl2, hle2⟩ := hmonoF n l1 hl1
              exact ⟨l2, hl2, le_trans hle2 hle1⟩
            · intro r hr
              have hrnd : r ≠ nd := by
                intro hrn
                have hrch : PChain m nd [] := PChain.nil nd (hrn ▸ hr)
                have hlx0 : lx = [] := pchain_unique hlx hrch
                rw [hlx0] at hciw
                have : wcost ([] : List (Edge C)) = 0 := wcost_nil
                rw [this] at hciw
                rw [hciw] at h2
                linarith
              refine hrootF r ?_
              rw [pmFind_pmSet_ne _ _ _ _ hrnd]
              exact hr
          · rw [if_neg h3] at h
            exact ih g m g2 m2 lq hwf hrecr hq hle h
        · rw [if_neg h2] at h
          exact ih g m g2 m2 lq hwf hrecr hq hle h

theorem addNode_snd_fresh {C : Type} [DecidableEq C] (g : Roadmap C) (q : C)
    (hfq : ∀ r ∈ g.nodes, r.cfg ≠ q) : (g.addNode q).2 = g.nextId := by
  simp only [Roadmap.addNode]
  rw [List.find?_eq_none.mpr]
  · intro r hr
    simp only [decide_eq_true_eq]
    exact hfq r hr

theorem of_mem_zip_right {A B : Type} {l1 : List A} {l2 : List B} {pr : A × B}
    (h : pr ∈ l1.zip l2) : pr.2 ∈ l2 := by
  obtain ⟨a, b⟩ := pr
  exact (List.of_mem_zip h).2

/-- Cost monotonicity of `extendCore`, provided the map is well-formed, built
paths have non-negative length, and the inserted node is genuinely fresh for
the parent map: no node's chain cost increases and no `none` (root) parent
entry is touched. -/
theorem extendCore_mono {C : Type} [DecidableEq C] {pb : Pb C} {g : Roadmap C}
    {m : ParentMap C} {cc : Nat} {near0 : Node} {p : Path C} {out : ExtendOut C}
    (hbp : ∀ a b L v p2, buildPath pb a b L v = some p2 → 0 ≤ p2.plen)
    (hwf : PMWf m) (hp : 0 ≤ p.plen)
    (hfresh : pmFind m (g.addNode p.pend).2 = none)
    (h : extendCore pb g m cc near0 p = .ok out) :
    PMWf out.m ∧
    (∀ n l, PChain m n l → ∃ l2, PChain out.m n l2 ∧ wcost l2 ≤ wcost l) ∧
    (∀ r, pmFind m r = some none → pmFind out.m r = some none) := by
  simp only [extendCore] at h
  rw [exceptBind_ok_iff] at h
  obtain ⟨c0, hc0, h⟩ := h
  rw [exceptBind_ok_iff] at h
  obtain ⟨ch, hch, h⟩ := h
  split at h
  · exact Except.noConfusion h
  · rename_i hnear
    rw [exceptBind_ok_iff] at h
    obtain ⟨m1, hm1, h⟩ := h
    rw [exceptBind_ok_iff] at h
    obtain ⟨pr3, hpr3, h⟩ := h
    obtain ⟨g4, m4⟩ := pr3
    simp only [Except.ok.injEq] at h
    obtain ⟨l0, hl0, hc0w⟩ := computeCost_ok_iff.mp hc0
    have hinv0 : ChooseInv m ⟨c0 + p.plen, near0, p, []⟩ := by
      refine ⟨⟨l0, hl0, by rw [hc0w]⟩, hp, ?_⟩
      intro r hr
      exact absurd hr (List.not_mem_nil r)
    have hchinv : ChooseInv m ch := choosePass_inv pb g m p.pend hbp _ _ _ hinv0 hch
    simp only [addEdge_snd] at hm1
    obtain ⟨-, hm1eq⟩ := setParent_ok_eq hm1
    subst hm1eq
    obtain ⟨lc, hlc, hcq⟩ := hchinv.chain
    have hins := @insert_fresh_mono C m (g.addNode p.pend).2
      ⟨ch.near, (g.addNode p.pend).2, ch.path⟩ lc hwf hfresh hchinv.pnn hlc
    obtain ⟨hwf1, hpres, hqc⟩ := hins
    have hqcost : wcost (⟨ch.near, (g.addNode p.pend).2, ch.path⟩ :: lc) ≤ ch.costq := by
      have hc : wcost ((⟨ch.near, (g.addNode p.pend).2, ch.path⟩ : Edge C) :: lc)
          = ch.path.plen + wcost lc := by simp [wcost]
      rw [hc, hcq]
      linarith
    have hrecz : ∀ pr ∈ (g.nodesWithinBall pb cc p.pend
        (ballRadius pb g.nodes.length)).zip ch.recs,
        ∀ p2, pr.2.2 = some p2 → 0 ≤ p2.plen := by
      intro pr hpr p2 hp2
      exact hchinv.recs pr.2 (of_mem_zip_right hpr) p2 hp2
    obtain ⟨hwfF, hmonoF, hrootF⟩ := rewirePass_mono pb (g.addNode p.pend).2 ch.near
      ch.costq false _ _ _ g4 m4 _ hwf1 hrecz hqc hqcost hpr3
    rw [← h]
    refine ⟨hwfF, ?_, ?_⟩
    · intro n l hl
      exact hmonoF n l (hpres n l hl)
    · intro r hr
      have hrq : r ≠ (g.addNode p.pend).2 := by
        intro hrn
        rw [hrn, hfresh] at hr
        exact Option.noConfusion hr
      refine hrootF r ?_
      rw [pmFind_pmSet_ne _ _ _ _ hrq]
      exact hr

/-- Cost monotonicity of one `improve` pass, provided the map is well-formed,
built paths have non-negative length, and `qnew` is fresh for the pass's
parent map. -/
theorem improvePass_mono {C : Type} [DecidableEq C] {pb : Pb C} {g : Roadmap C}
    {m : ParentMap C} {qnew near0 : Node} {p : Path C} {q : C} {nearNodes : List Node}
    {r : Roadmap C × ParentMap C × Node}
    (hbp : ∀ a b L v p2, buildPath pb a b L v = some p2 → 0 ≤ p2.plen)
    (hwf : PMWf m) (hp : 0 ≤ p.plen) (hfresh : pmFind m qnew = none)
    (h : improvePass pb g m qnew near0 p q nearNodes = .ok r) :
    PMWf r.2.1 ∧
    (∀ n l, PChain m n l → ∃ l2, PChain r.2.1 n l2 ∧ wcost l2 ≤ wcost l) ∧
    (∀ rt, pmFind m rt = some none → pmFind r.2.1 rt = some none) := by
  simp only [improvePass] at h
  rw [exceptBind_ok_iff] at h
  obtain ⟨c0, hc0, h⟩ := h
  rw [exceptBind_ok_iff] at h
  obtain ⟨ch, hch, h⟩ := h
  split at h
  · exact Except.noConfusion h
  · rename_i hnear
    rw [exceptBind_ok_iff] at h
    obtain ⟨m1, hm1, h⟩ := h
    rw [exceptBind_ok_iff] at h
    obtain ⟨pr3, hpr3, h⟩ := h
    obtain ⟨g4, m4⟩ := pr3
    simp only [Except.ok.injEq] at h
    obtain ⟨l0, hl0, hc0w⟩ := computeCost_ok_iff.mp hc0
    have hinv0 : ChooseInv m ⟨c0 + p.plen, near0, p, []⟩ := by
      refine ⟨⟨l0, hl0, by rw [hc0w]⟩, hp, ?_⟩
      intro rr hrr
      exact absurd hrr (List.not_mem_nil rr)
    have hchinv : ChooseInv m ch := choosePass_inv pb g m q hbp _ _ _ hinv0 hch
    simp only [addEdge_snd] at hm1
    obtain ⟨-, hm1eq⟩ := setParent_ok_eq hm1
    subst hm1eq
    obtain ⟨lc, hlc, hcq⟩ := hchinv.chain
    have hins := @insert_fresh_mono C m qnew ⟨ch.near, qnew, ch.path⟩ lc
      hwf hfresh hchinv.pnn hlc
    obtain ⟨hwf1, hpres, hqc⟩ := hins
    have hqcost : wcost (⟨ch.near, qnew, ch.path⟩ :: lc) ≤ ch.costq := by
      have hc : wcost ((⟨ch.near, qnew, ch.path⟩ : Edge C) :: lc)
          = ch.path.plen + wcost lc := by simp [wcost]
      rw [hc, hcq]
      linarith
    have hrecz : ∀ pr ∈ nearNodes.zip ch.recs, ∀ p2, pr.2.2 = some p2 → 0 ≤ p2.plen := by
      intro pr hpr p2 hp2
      exact hchinv.recs pr.2 (of_mem_zip_right hpr) p2 hp2
    obtain ⟨hwfF, hmonoF, hrootF⟩ := rewirePass_mono pb qnew ch.near
      ch.costq true _ _ _ g4 m4 _ hwf1 hrecz hqc hqcost hpr3
    rw [← h]
    refine ⟨hwfF, ?_, ?_⟩
    · intro n l hl
      exact hmonoF n l (hpres n l hl)
    · intro rt hrt
      have hrq : rt ≠ qnew := by
        intro hrn
        rw [hrn, hfresh] at hrt
        exact Option.noConfusion hrt
      refine hrootF rt ?_
      rw [pmFind_pmSet_ne _ _ _ _ hrq]
      exact hrt

/-- Cost monotonicity of `improveCore` for both parent maps. -/
theorem improveCore_mono {C : Type} [DecidableEq C] {pb : Pb C} {g : Roadmap C}
    {m0 m1 : ParentMap C} {root0 near0 : Node} {p : Path C} {q : C} {out : ImproveOut C}
    (hbp : ∀ a b L v p2, buildPath pb a b L v = some p2 → 0 ≤ p2.plen)
    (hwf0 : PMWf m0) (hwf1 : PMWf m1) (hp : 0 ≤ p.plen)
    (hfresh0 : pmFind m0 (g.addNode q).2 = none)
    (hfresh1 : pmFind m1 (g.addNode q).2 = none)
    (h : improveCore pb g m0 m1 root0 near0 p q = .ok out) :
    (PMWf out.m0 ∧
      (∀ n l, PChain m0 n l → ∃ l2, PChain out.m0 n l2 ∧ wcost l2 ≤ wcost l) ∧
      (∀ rt, pmFind m0 rt = some none → pmFind out.m0 rt = some none)) ∧
    (PMWf out.m1 ∧
      (∀ n l, PChain m1 n l → ∃ l2, PChain out.m1 n l2 ∧ wcost l2 ≤ wcost l) ∧
      (∀ rt, pmFind m1 rt = some none → pmFind out.m1 rt = some none)) := by
  simp only [improveCore] at h
  rw [exceptBind_ok_iff] at h
  obtain ⟨r0, hr0, h⟩ := h
  rw [exceptBind_ok_iff] at h
  obtain ⟨r1, hr1, h⟩ := h
  simp only [Except.ok.injEq] at h
  have hm0 := improvePass_mono hbp hwf0 hp hfresh0 hr0
  have hm1 := improvePass_mono hbp hwf1 hp hfresh1 hr1
  rw [← h]
  exact ⟨hm0, hm1⟩

theorem mono_computeCost {C : Type} {m m2 : ParentMap C}
    (hmono : ∀ n l, PChain m n l → ∃ l2, PChain m2 n l2 ∧ wcost l2 ≤ wcost l) :
    ∀ n c, computeCost m n = .ok c → ∃ c2, computeCost m2 n = .ok c2 ∧ c2 ≤ c := by
  intro n c hc
  obtain ⟨l, hl, hcw⟩ := computeCost_ok_iff.mp hc
  obtain ⟨l2, hl2, hle⟩ := hmono n l hl
  exact ⟨wcost l2, computeCost_ok_iff.mpr ⟨l2, hl2, rfl⟩, by rw [hcw]; exact hle⟩

/-- Cost monotonicity of `extend`, provided the map is well-formed, built
paths have non-negative length, the next handle is unmapped, and no roadmap
node already carries the inserted configuration (no `addNode`
deduplication). -/
theorem extend_mono {C : Type} [DecidableEq C] {pb : Pb C} {g : Roadmap C}
    {m : ParentMap C} {target : Node} {q : C} {out : ExtendOut C}
    (hbp : ∀ a b L v p2, buildPath pb a b L v = some p2 → 0 ≤ p2.plen)
    (hwf : PMWf m) (hnext : pmFind m g.nextId = none)
    (h : extend pb g m target q = .ok out)
    (hfout : ∀ r ∈ g.nodes, r.cfg ≠ out.q) :
    PMWf out.m ∧
    (∀ n l, PChain m n l → ∃ l2, PChain out.m n l2 ∧ wcost l2 ≤ wcost l) ∧
    (∀ rt, pmFind m rt = some none → pmFind out.m rt = some none) := by
  simp only [extend] at h
  cases hnn : g.nearestNode pb (some (g.cmp target)) q with
  | none =>
    simp only [hnn] at h
    exact Except.noConfusion h
  | some nd =>
    simp only [hnn] at h
    by_cases h16 : nd.2 < eps16
    · rw [if_pos h16] at h
      simp only [Except.ok.injEq] at h
      rw [← h]
      exact ⟨hwf, fun n l hl => ⟨l, hl, le_refl _⟩, fun rt hrt => hrt⟩
    · rw [if_neg h16] at h
      cases hcf : g.cfgOf nd.1 with
      | none =>
        simp only [hcf] at h
        exact Except.noConfusion h
      | some nearCfg =>
        simp only [hcf] at h
        cases hbpp : buildPath pb nearCfg q pb.extendMaxLength true with
        | none =>
          simp only [hbpp] at h
          simp only [Except.ok.injEq] at h
          rw [← h]
          exact ⟨hwf, fun n l hl => ⟨l, hl, le_refl _⟩, fun rt hrt => hrt⟩
        | some p =>
          simp only [hbpp] at h
          by_cases h10 : p.plen < eps10
          · rw [if_pos h10] at h
            simp only [Except.ok.injEq] at h
            rw [← h]
            exact ⟨hwf, fun n l hl => ⟨l, hl, le_refl _⟩, fun rt hrt => hrt⟩
          · rw [if_neg h10] at h
            have hq2 := (extendCore_ok_fields pb g m (g.cmp target) nd.1 p out h).2
            have hfq2 : ∀ r ∈ g.nodes, r.cfg ≠ p.pend := by
              intro r hr
              have := hfout r hr
              rw [hq2] at this
              exact this
            have hfresh : pmFind m (g.addNode p.pend).2 = none := by
              rw [addNode_snd_fresh g p.pend hfq2]
              exact hnext
            exact extendCore_mono hbp hwf (hbp _ _ _ _ _ hbpp) hfresh h

/-- Cost monotonicity of `improve` for both parent maps, provided the maps
are well-formed, built paths have non-negative length, the next handle is
unmapped in both, and no roadmap node already carries the sampled
configuration (no `addNode` deduplication). -/
theorem improve_mono {C : Type} [DecidableEq C] {pb : Pb C} {g : Roadmap C}
    {m0 m1 : ParentMap C} {root0 : Node} {q : C} {out : ImproveOut C}
    (hbp : ∀ a b L v p2, buildPath pb a b L v = some p2 → 0 ≤ p2.plen)
    (hwf0 : PMWf m0) (hwf1 : PMWf m1)
    (hfq : ∀ r ∈ g.nodes, r.cfg ≠ q)
    (hn0 : pmFind m0 g.nextId = none) (hn1 : pmFind m1 g.nextId = none)
    (h : improve pb g m0 m1 root0 q = .ok out) :
    (PMWf out.m0 ∧
      (∀ n l, PChain m0 n l → ∃ l2, PChain out.m0 n l2 ∧ wcost l2 ≤ wcost l) ∧
      (∀ rt, pmFind m0 rt = some none → pmFind out.m0 rt = some none)) ∧
    (PMWf out.m1 ∧
      (∀ n l, PChain m1 n l → ∃ l2, PChain out.m1 n l2 ∧ wcost l2 ≤ wcost l) ∧
      (∀ rt, pmFind m1 rt = some none → pmFind out.m1 rt = some none)) := by
  have htriv : (PMWf m0 ∧
      (∀ n l, PChain m0 n l → ∃ l2, PChain m0 n l2 ∧ wcost l2 ≤ wcost l) ∧
      (∀ rt, pmFind m0 rt = some none → pmFind m0 rt = some none)) ∧
    (PMWf m1 ∧
      (∀ n l, PChain m1 n l → ∃ l2, PChain m1 n l2 ∧ wcost l2 ≤ wcost l) ∧
      (∀ rt, pmFind m1 rt = some none → pmFind m1 rt = some none)) :=
    ⟨⟨hwf0, fun n l hl => ⟨l, hl, le_refl _⟩, fun rt hrt => hrt⟩,
     ⟨hwf1, fun n l hl => ⟨l, hl, le_refl _⟩, fun rt hrt => hrt⟩⟩
  simp only [improve] at h
  cases hnn : g.nearestNode pb none q with
  | none =>
    simp only [hnn] at h
    exact Except.noConfusion h
  | some nd =>
    simp only [hnn] at h
    by_cases h16 : nd.2 < eps16
    · rw [if_pos h16] at h
      simp only [Except.ok.injEq] at h
      rw [← h]
      exact htriv
    · rw [if_neg h16] at h
      cases hcf : g.cfgOf nd.1 with
      | none =>
        simp only [hcf] at h
        exact Except.noConfusion h
      | some nearCfg =>
        simp only [hcf] at h
        cases hbpp : buildPath pb nearCfg q pb.extendMaxLength true with
        | none =>
          simp only [hbpp] at h
          simp only [Except.ok.injEq] at h
          rw [← h]
          exact htriv
        | some p =>
          simp only [hbpp] at h
          by_cases h10 : p.plen < eps10
          · rw [if_pos h10] at h
            simp only [Except.ok.injEq] at h
            rw [← h]
            exact htriv
          · rw [if_neg h10] at h
            have hfr0 : pmFind m0 (g.addNode q).2 = none := by
              rw [addNode_snd_fresh g q hfq]
              exact hn0
            have hfr1 : pmFind m1 (g.addNode q).2 = none := by
              rw [addNode_snd_fresh g q hfq]
              exact hn1
            exact improveCore_mono hbp hwf0 hwf1 (hbp _ _ _ _ _ hbpp) hfr0 hfr1 h

/-- C3: CORRECTED cost monotonicity. The claim's unconditional statement is
refuted by `oneStep_cost_to_root_increases` (via `addNode` deduplication the
"new" node can be an existing mapped node, whose parent entry `extend`
overwrites unconditionally, increasing costs); it holds under freshness:
provided every built path has non-negative length, the parent maps are
well-formed (every mapped node's parent chain terminates at a root entry and
every entry's path length is non-negative), the next roadmap handle is
unmapped, and the inserted configuration is not already carried by a roadmap
node, no rewiring performed by a successful `extend` or `improve` increases
any node's `cost_to_root`: every node with a defined cost keeps a defined,
no-larger cost. -/
theorem extend_improve_cost_monotone {C : Type} [DecidableEq C] (pb : Pb C) :
    (∀ (g : Roadmap C) (m : ParentMap C) (target : Node) (q : C) (out : ExtendOut C),
      (∀ a b L v p2, buildPath pb a b L v = some p2 → 0 ≤ p2.plen) →
      PMWf m → pmFind m g.nextId = none →
      extend pb g m target q = .ok out →
      (∀ r ∈ g.nodes, r.cfg ≠ out.q) →
      ∀ n c, computeCost m n = .ok c →
        ∃ c2, computeCost out.m n = .ok c2 ∧ c2 ≤ c) ∧
    (∀ (g : Roadmap C) (m0 m1 : ParentMap C) (root0 : Node) (q : C) (out : ImproveOut C),
      (∀ a b L v p2, buildPath pb a b L v = some p2 → 0 ≤ p2.plen) →
      PMWf m0 → PMWf m1 →
      (∀ r ∈ g.nodes, r.cfg ≠ q) →
      pmFind m0 g.nextId = none → pmFind m1 g.nextId = none →
      improve pb g m0 m1 root0 q = .ok out →
      ∀ n c,
        (computeCost m0 n = .ok c → ∃ c2, computeCost out.m0 n = .ok c2 ∧ c2 ≤ c) ∧
        (computeCost m1 n = .ok c → ∃ c2, computeCost out.m1 n = .ok c2 ∧ c2 ≤ c)) := by
  constructor
  · intro g m target q out hbp hwf hnext h hfout n c hc
    exact mono_computeCost (extend_mono hbp hwf hnext h hfout).2.1 n c hc
  · intro g m0 m1 root0 q out hbp hwf0 hwf1 hfq hn0 hn1 h n c
    obtain ⟨⟨-, hm0, -⟩, ⟨-, hm1, -⟩⟩ := improve_mono hbp hwf0 hwf1 hfq hn0 hn1 h
    exact ⟨fun hc => mono_computeCost hm0 n c hc, fun hc => mono_computeCost hm1 n c hc⟩

/-- C10: CORRECTED root-entry preservation. Unconditionally the implicit
claim is refuted by `oneStep_root_entry_repointed` (via `addNode`
deduplication the "new" node can be the root itself, whose `None` entry the
unconditional `setParent` on `qnew` overwrites); under freshness it holds,
and for the reason the claim gives: a rewiring re-point needs a candidate
cost strictly below the node's current `cost_to_root`, a root entry costs 0,
and with a well-formed map no candidate cost is negative, so a successful
`extend` or `improve` preserves every `None` (root) parent entry — in
particular `toRoot[k][roots[k]]` stays `None`. -/
theorem extend_improve_preserve_root_entry {C : Type} [DecidableEq C] (pb : Pb C) :
    (∀ (g : Roadmap C) (m : ParentMap C) (target : Node) (q : C) (out : ExtendOut C)
        (rt : Node),
      (∀ a b L v p2, buildPath pb a b L v = some p2 → 0 ≤ p2.plen) →
      PMWf m → pmFind m g.nextId = none →
      extend pb g m target q = .ok out →
      (∀ r ∈ g.nodes, r.cfg ≠ out.q) →
      pmFind m rt = some none → pmFind out.m rt = some none) ∧
    (∀ (g : Roadmap C) (m0 m1 : ParentMap C) (root0 : Node) (q : C) (out : ImproveOut C)
        (rt : Node),
      (∀ a b L v p2, buildPath pb a b L v = some p2 → 0 ≤ p2.plen) →
      PMWf m0 → PMWf m1 →
      (∀ r ∈ g.nodes, r.cfg ≠ q) →
      pmFind m0 g.nextId = none → pmFind m1 g.nextId = none →
      improve pb g m0 m1 root0 q = .ok out →
      (pmFind m0 rt = some none → pmFind out.m0 rt = some none) ∧
      (pmFind m1 rt = some none → pmFind out.m1 rt = some none)) := by
  constructor
  · intro g m target q out rt hbp hwf hnext h hfout hrt
    exact (extend_mono hbp hwf hnext h hfout).2.2 rt hrt
  · intro g m0 m1 root0 q out rt hbp hwf0 hwf1 hfq hn0 hn1 h
    obtain ⟨⟨-, -, hr0⟩, ⟨-, -, hr1⟩⟩ := improve_mono hbp hwf0 hwf1 hfq hn0 hn1 h
    exact ⟨fun hrt => hr0 rt hrt, fun hrt => hr1 rt hrt⟩

end BiRrt
